import Mathlib

/-!
Verification of the SAMI flux-calibration module `src/dr/fluxcal2.py`.

Shallow-embedding conventions used throughout this file:

* IEEE floats are modelled exactly: a `numpy` float array is a `List ℚ`
  where every value in the regime of interest is finite, and a `List Fp`
  where non-finite values (NaN, ±inf) matter.  `Fp` distinguishes values
  exactly at the granularity the Python code inspects (`np.isfinite`,
  division by zero).  Exact rational arithmetic stands in for floating
  point, so "within floating-point tolerance" statements become exact
  equalities.
* Transcendental evaluations (`np.cos`, `np.sin`, `np.tan`, `np.pi`) are
  carried out over `ℝ`; everything the code computes with rational
  arithmetic stays executable over `ℚ`.
* Python 2 semantics are modelled faithfully where they matter:
  `/` on ints is floor division, `int()` on a non-negative float is the
  floor, `x % 1` on a non-negative float is the fractional part, negative
  indices `v[-k]` read `v[len v - k]`.
-/

/-- A floating-point value at the granularity the Python code inspects:
a finite value (exact rational), positive or negative infinity, or NaN. -/
inductive Fp where
  | fin (q : ℚ)
  | inf
  | ninf
  | nan
deriving DecidableEq, Repr

namespace Fp

/-- `np.isfinite`. -/
def isFinite : Fp → Bool
  | fin _ => true
  | _ => false

/-- The rational value of a finite entry (0 for non-finite ones; only read
where the code has already established finiteness or zeroed the entry). -/
def val : Fp → ℚ
  | fin q => q
  | _ => 0

/-- `1.0 / x` in IEEE arithmetic.  `1/0.0 = inf` (ℚ has no `-0.0`, and the
code never produces one where this reciprocal is taken), `1/±inf = 0`,
`1/nan = nan`. -/
def recip : Fp → Fp
  | fin q => if q = 0 then inf else fin (1 / q)
  | inf => fin 0
  | ninf => fin 0
  | nan => nan

end Fp

/-- IEEE division of two finite values: `a / 0` is `nan` (for `a = 0`) or
`±inf`, otherwise the exact quotient.  Used for numpy's elementwise `/`. -/
def fpDivQ (a b : ℚ) : Fp :=
  if b = 0 then (if a = 0 then Fp.nan else if 0 < a then Fp.inf else Fp.ninf)
  else Fp.fin (a / b)

/- ----------------------------------------------------------------------
Parameter codec (`parameters_dict_to_vector` / `parameters_vector_to_dict`,
fluxcal2.py lines 218-299).  The Python dictionaries hold exactly the key
set of one model variant; each variant is embedded as a structure whose
field names are the dictionary keys.
---------------------------------------------------------------------- -/

/-- Parameter record for model `ref_centre_alpha_angle`. -/
structure ParamsFull where
  flux : List ℚ
  background : List ℚ
  xcen_ref : ℚ
  ycen_ref : ℚ
  zenith_direction : ℚ
  zenith_distance : ℚ
  alphax_ref : ℚ
  alphay_ref : ℚ
  beta : ℚ
  rho : ℚ
deriving DecidableEq, Repr

/-- Parameter record for model `ref_centre_alpha_angle_circ`. -/
structure ParamsCirc where
  flux : List ℚ
  background : List ℚ
  xcen_ref : ℚ
  ycen_ref : ℚ
  zenith_direction : ℚ
  zenith_distance : ℚ
  alpha_ref : ℚ
  beta : ℚ
deriving DecidableEq, Repr

/-- Parameter record for model `ref_centre_alpha_angle_circ_atm`. -/
structure ParamsCircAtm where
  flux : List ℚ
  background : List ℚ
  temperature : ℚ
  pressure : ℚ
  vapour_pressure : ℚ
  xcen_ref : ℚ
  ycen_ref : ℚ
  zenith_direction : ℚ
  zenith_distance : ℚ
  alpha_ref : ℚ
  beta : ℚ
deriving DecidableEq, Repr

/-- `parameters_dict_to_vector`, branch `ref_centre_alpha_angle`
(lines 220-231): `np.hstack` of flux, background and the eight scalars. -/
def parameters_dict_to_vector_full (p : ParamsFull) : List ℚ :=
  p.flux ++ p.background ++
    [p.xcen_ref, p.ycen_ref, p.zenith_direction, p.zenith_distance,
     p.alphax_ref, p.alphay_ref, p.beta, p.rho]

/-- `parameters_dict_to_vector`, branch `ref_centre_alpha_angle_circ`
(lines 232-241). -/
def parameters_dict_to_vector_circ (p : ParamsCirc) : List ℚ :=
  p.flux ++ p.background ++
    [p.xcen_ref, p.ycen_ref, p.zenith_direction, p.zenith_distance,
     p.alpha_ref, p.beta]

/-- `parameters_dict_to_vector`, branch `ref_centre_alpha_angle_circ_atm`
(lines 242-254). -/
def parameters_dict_to_vector_circ_atm (p : ParamsCircAtm) : List ℚ :=
  p.flux ++ p.background ++
    [p.temperature, p.pressure, p.vapour_pressure,
     p.xcen_ref, p.ycen_ref, p.zenith_direction, p.zenith_distance,
     p.alpha_ref, p.beta]

/-- `parameters_vector_to_dict`, branch `ref_centre_alpha_angle`
(lines 262-273).  `n_slice = (len(v) - 8) / 2` is Python 2 integer floor
division; `v[0:n]` is `take`, `v[n:2n]` is `drop`-then-`take`, and the
negative index `v[-k]` reads position `len v - k` (`getD`, the code would
raise `IndexError` on an out-of-range index, which no claim exercises). -/
def parameters_vector_to_dict_full (v : List ℚ) : ParamsFull :=
  let n_slice := (v.length - 8) / 2
  ⟨v.take n_slice, (v.drop n_slice).take n_slice,
   v.getD (v.length - 8) 0, v.getD (v.length - 7) 0,
   v.getD (v.length - 6) 0, v.getD (v.length - 5) 0,
   v.getD (v.length - 4) 0, v.getD (v.length - 3) 0,
   v.getD (v.length - 2) 0, v.getD (v.length - 1) 0⟩

/-- `parameters_vector_to_dict`, branch `ref_centre_alpha_angle_circ`
(lines 274-283). -/
def parameters_vector_to_dict_circ (v : List ℚ) : ParamsCirc :=
  let n_slice := (v.length - 6) / 2
  ⟨v.take n_slice, (v.drop n_slice).take n_slice,
   v.getD (v.length - 6) 0, v.getD (v.length - 5) 0,
   v.getD (v.length - 4) 0, v.getD (v.length - 3) 0,
   v.getD (v.length - 2) 0, v.getD (v.length - 1) 0⟩

/-- `parameters_vector_to_dict`, branch `ref_centre_alpha_angle_circ_atm`
(lines 284-296). -/
def parameters_vector_to_dict_circ_atm (v : List ℚ) : ParamsCircAtm :=
  let n_slice := (v.length - 9) / 2
  ⟨v.take n_slice, (v.drop n_slice).take n_slice,
   v.getD (v.length - 9) 0, v.getD (v.length - 8) 0,
   v.getD (v.length - 7) 0, v.getD (v.length - 6) 0,
   v.getD (v.length - 5) 0, v.getD (v.length - 4) 0,
   v.getD (v.length - 3) 0, v.getD (v.length - 2) 0,
   v.getD (v.length - 1) 0⟩

/-- Reading a scalar slot past the two per-slice blocks of a parameter
vector lands in the scalar tail. -/
theorem getD_scalar_slot (fl bg cs : List ℚ) (k : ℕ) :
    (fl ++ bg ++ cs).getD (fl.length + bg.length + k) 0 = cs.getD k 0 := by
  rw [List.getD_append_right _ _ _ _ (by simp)]
  simp

/-- Round trip of the codec for `ref_centre_alpha_angle`. -/
theorem roundtrip_full (p : ParamsFull) (h : p.flux.length = p.background.length) :
    parameters_vector_to_dict_full (parameters_dict_to_vector_full p) = p := by
  obtain ⟨fl, bg, x, y, zdir, zdist, ax, ay, b, r⟩ := p
  simp only at h
  have hv : parameters_dict_to_vector_full ⟨fl, bg, x, y, zdir, zdist, ax, ay, b, r⟩
      = fl ++ bg ++ [x, y, zdir, zdist, ax, ay, b, r] := rfl
  have hlen : (fl ++ bg ++ [x, y, zdir, zdist, ax, ay, b, r]).length
      = fl.length + bg.length + 8 := by simp [Nat.add_assoc]
  unfold parameters_vector_to_dict_full
  rw [hv, hlen]
  have hn : (fl.length + bg.length + 8 - 8) / 2 = fl.length := by omega
  rw [hn]
  simp only [ParamsFull.mk.injEq]
  refine ⟨?_, ?_, ?_, ?_, ?_, ?_, ?_, ?_, ?_, ?_⟩
  · rw [List.append_assoc, List.take_left]
  · rw [List.append_assoc, List.drop_left, h, List.take_left]
  all_goals {
    first
    | (rw [show fl.length + bg.length + 8 - 8 = fl.length + bg.length + 0 by omega, getD_scalar_slot]; rfl)
    | (rw [show fl.length + bg.length + 8 - 7 = fl.length + bg.length + 1 by omega, getD_scalar_slot]; rfl)
    | (rw [show fl.length + bg.length + 8 - 6 = fl.length + bg.length + 2 by omega, getD_scalar_slot]; rfl)
    | (rw [show fl.length + bg.length + 8 - 5 = fl.length + bg.length + 3 by omega, getD_scalar_slot]; rfl)
    | (rw [show fl.length + bg.length + 8 - 4 = fl.length + bg.length + 4 by omega, getD_scalar_slot]; rfl)
    | (rw [show fl.length + bg.length + 8 - 3 = fl.length + bg.length + 5 by omega, getD_scalar_slot]; rfl)
    | (rw [show fl.length + bg.length + 8 - 2 = fl.length + bg.length + 6 by omega, getD_scalar_slot]; rfl)
    | (rw [show fl.length + bg.length + 8 - 1 = fl.length + bg.length + 7 by omega, getD_scalar_slot]; rfl)
  }

/-- Round trip of the codec for `ref_centre_alpha_angle_circ`. -/
theorem roundtrip_circ (p : ParamsCirc) (h : p.flux.length = p.background.length) :
    parameters_vector_to_dict_circ (parameters_dict_to_vector_circ p) = p := by
  obtain ⟨fl, bg, x, y, zdir, zdist, a, b⟩ := p
  simp only at h
  have hv : parameters_dict_to_vector_circ ⟨fl, bg, x, y, zdir, zdist, a, b⟩
      = fl ++ bg ++ [x, y, zdir, zdist, a, b] := rfl
  have hlen : (fl ++ bg ++ [x, y, zdir, zdist, a, b]).length
      = fl.length + bg.length + 6 := by simp [Nat.add_assoc]
  unfold parameters_vector_to_dict_circ
  rw [hv, hlen]
  have hn : (fl.length + bg.length + 6 - 6) / 2 = fl.length := by omega
  rw [hn]
  simp only [ParamsCirc.mk.injEq]
  refine ⟨?_, ?_, ?_, ?_, ?_, ?_, ?_, ?_⟩
  · rw [List.append_assoc, List.take_left]
  · rw [List.append_assoc, List.drop_left, h, List.take_left]
  all_goals {
    first
    | (rw [show fl.length + bg.length + 6 - 6 = fl.length + bg.length + 0 by omega, getD_scalar_slot]; rfl)
    | (rw [show fl.length + bg.length + 6 - 5 = fl.length + bg.length + 1 by omega, getD_scalar_slot]; rfl)
    | (rw [show fl.length + bg.length + 6 - 4 = fl.length + bg.length + 2 by omega, getD_scalar_slot]; rfl)
    | (rw [show fl.length + bg.length + 6 - 3 = fl.length + bg.length + 3 by omega, getD_scalar_slot]; rfl)
    | (rw [show fl.length + bg.length + 6 - 2 = fl.length + bg.length + 4 by omega, getD_scalar_slot]; rfl)
    | (rw [show fl.length + bg.length + 6 - 1 = fl.length + bg.length + 5 by omega, getD_scalar_slot]; rfl)
  }

/-- Round trip of the codec for `ref_centre_alpha_angle_circ_atm`. -/
theorem roundtrip_circ_atm (p : ParamsCircAtm) (h : p.flux.length = p.background.length) :
    parameters_vector_to_dict_circ_atm (parameters_dict_to_vector_circ_atm p) = p := by
  obtain ⟨fl, bg, t, pr, vp, x, y, zdir, zdist, a, b⟩ := p
  simp only at h
  have hv : parameters_dict_to_vector_circ_atm ⟨fl, bg, t, pr, vp, x, y, zdir, zdist, a, b⟩
      = fl ++ bg ++ [t, pr, vp, x, y, zdir, zdist, a, b] := rfl
  have hlen : (fl ++ bg ++ [t, pr, vp, x, y, zdir, zdist, a, b]).length
      = fl.length + bg.length + 9 := by simp [Nat.add_assoc]
  unfold parameters_vector_to_dict_circ_atm
  rw [hv, hlen]
  have hn : (fl.length + bg.length + 9 - 9) / 2 = fl.length := by omega
  rw [hn]
  simp only [ParamsCircAtm.mk.injEq]
  refine ⟨?_, ?_, ?_, ?_, ?_, ?_, ?_, ?_, ?_, ?_, ?_⟩
  · rw [List.append_assoc, List.take_left]
  · rw [List.append_assoc, List.drop_left, h, List.take_left]
  all_goals {
    first
    | (rw [show fl.length + bg.length + 9 - 9 = fl.length + bg.length + 0 by omega, getD_scalar_slot]; rfl)
    | (rw [show fl.length + bg.length + 9 - 8 = fl.length + bg.length + 1 by omega, getD_scalar_slot]; rfl)
    | (rw [show fl.length + bg.length + 9 - 7 = fl.length + bg.length + 2 by omega, getD_scalar_slot]; rfl)
    | (rw [show fl.length + bg.length + 9 - 6 = fl.length + bg.length + 3 by omega, getD_scalar_slot]; rfl)
    | (rw [show fl.length + bg.length + 9 - 5 = fl.length + bg.length + 4 by omega, getD_scalar_slot]; rfl)
    | (rw [show fl.length + bg.length + 9 - 4 = fl.length + bg.length + 5 by omega, getD_scalar_slot]; rfl)
    | (rw [show fl.length + bg.length + 9 - 3 = fl.length + bg.length + 6 by omega, getD_scalar_slot]; rfl)
    | (rw [show fl.length + bg.length + 9 - 2 = fl.length + bg.length + 7 by omega, getD_scalar_slot]; rfl)
    | (rw [show fl.length + bg.length + 9 - 1 = fl.length + bg.length + 8 by omega, getD_scalar_slot]; rfl)
  }

/-- C1: for each of the three model variants, converting a well-formed
parameter record (flux and background of equal length `n`) to a flat
vector and back returns a record equal field for field to the original,
and the vector has length `2n + 8` for `ref_centre_alpha_angle`, `2n + 6`
for `ref_centre_alpha_angle_circ`, `2n + 9` for
`ref_centre_alpha_angle_circ_atm`. -/
theorem parameters_codec_roundtrip_and_length
    (p1 : ParamsFull) (p2 : ParamsCirc) (p3 : ParamsCircAtm)
    (h1 : p1.flux.length = p1.background.length)
    (h2 : p2.flux.length = p2.background.length)
    (h3 : p3.flux.length = p3.background.length) :
    (parameters_vector_to_dict_full (parameters_dict_to_vector_full p1) = p1
      ∧ (parameters_dict_to_vector_full p1).length = 2 * p1.flux.length + 8)
    ∧ (parameters_vector_to_dict_circ (parameters_dict_to_vector_circ p2) = p2
      ∧ (parameters_dict_to_vector_circ p2).length = 2 * p2.flux.length + 6)
    ∧ (parameters_vector_to_dict_circ_atm (parameters_dict_to_vector_circ_atm p3) = p3
      ∧ (parameters_dict_to_vector_circ_atm p3).length = 2 * p3.flux.length + 9) := by
  refine ⟨⟨roundtrip_full p1 h1, ?_⟩, ⟨roundtrip_circ p2 h2, ?_⟩,
    ⟨roundtrip_circ_atm p3 h3, ?_⟩⟩
  · simp [parameters_dict_to_vector_full, ← h1]; omega
  · simp [parameters_dict_to_vector_circ, ← h2]; omega
  · simp [parameters_dict_to_vector_circ_atm, ← h3]; omega

/-- Witness for C1 at concrete one-slice records. -/
theorem parameters_codec_roundtrip_and_length_witness :
    ((ParamsFull.mk [1] [2] 3 4 5 6 7 8 9 10).flux.length
        = (ParamsFull.mk [1] [2] 3 4 5 6 7 8 9 10).background.length)
    ∧ ((ParamsCirc.mk [1] [2] 3 4 5 6 7 8).flux.length
        = (ParamsCirc.mk [1] [2] 3 4 5 6 7 8).background.length)
    ∧ ((ParamsCircAtm.mk [1] [2] 3 4 5 6 7 8 9 10 11).flux.length
        = (ParamsCircAtm.mk [1] [2] 3 4 5 6 7 8 9 10 11).background.length)
    ∧ ((parameters_vector_to_dict_full
          (parameters_dict_to_vector_full (ParamsFull.mk [1] [2] 3 4 5 6 7 8 9 10))
            = ParamsFull.mk [1] [2] 3 4 5 6 7 8 9 10
        ∧ (parameters_dict_to_vector_full (ParamsFull.mk [1] [2] 3 4 5 6 7 8 9 10)).length
            = 2 * (ParamsFull.mk [1] [2] 3 4 5 6 7 8 9 10).flux.length + 8)
      ∧ (parameters_vector_to_dict_circ
          (parameters_dict_to_vector_circ (ParamsCirc.mk [1] [2] 3 4 5 6 7 8))
            = ParamsCirc.mk [1] [2] 3 4 5 6 7 8
        ∧ (parameters_dict_to_vector_circ (ParamsCirc.mk [1] [2] 3 4 5 6 7 8)).length
            = 2 * (ParamsCirc.mk [1] [2] 3 4 5 6 7 8).flux.length + 6)
      ∧ (parameters_vector_to_dict_circ_atm
          (parameters_dict_to_vector_circ_atm (ParamsCircAtm.mk [1] [2] 3 4 5 6 7 8 9 10 11))
            = ParamsCircAtm.mk [1] [2] 3 4 5 6 7 8 9 10 11
        ∧ (parameters_dict_to_vector_circ_atm
            (ParamsCircAtm.mk [1] [2] 3 4 5 6 7 8 9 10 11)).length
            = 2 * (ParamsCircAtm.mk [1] [2] 3 4 5 6 7 8 9 10 11).flux.length + 9)) :=
  ⟨rfl, rfl, rfl, parameters_codec_roundtrip_and_length _ _ _ rfl rfl rfl⟩

/- ----------------------------------------------------------------------
Atmospheric dispersion (`refractive_index`, `dar`, fluxcal2.py lines
375-408).  `refractive_index` is pure rational arithmetic and stays
executable; `dar` multiplies by `np.tan(zenith_distance)`, carried out
over ℝ.  The `None` defaults of the Python keyword arguments are `Option`
arguments resolved with `getD`.
---------------------------------------------------------------------- -/

/-- `REFERENCE_WAVELENGTH = 5000.0` (line 44). -/
def REFERENCE_WAVELENGTH : ℚ := 5000

/-- `refractive_index` (lines 389-408): Filippenko (1982) dispersion
formula; wavelength converted from Angstroms to microns by `1e-4`. -/
def refractive_index (wavelength : ℚ)
    (temperature pressure vapour_pressure : Option ℚ) : ℚ :=
  let t := temperature.getD 7
  let p := pressure.getD 600
  let vp := vapour_pressure.getD 8
  let wl := wavelength * (1 / 10 ^ 4)
  let seaLevelDry :=
    64.328 + 29498.1 / (146 - 1 / wl ^ 2) + 255.4 / (41 - 1 / wl ^ 2)
  let altitudeCorrection :=
    (p * (1 + (1.049 - 0.0157 * t) * (1 / 10 ^ 6) * p))
      / (720.883 * (1 + 0.003661 * t))
  let vapourCorrection :=
    ((0.0624 - 0.000680 / wl ^ 2) / (1 + 0.003661 * t)) * vp
  (1 / 10 ^ 6) * (seaLevelDry * altitudeCorrection - vapourCorrection) + 1

/-- `dar` (lines 379-387): `206265 * (n_observed - n_reference) *
np.tan(zenith_distance)`, both refractive indices evaluated with the same
atmospheric arguments. -/
noncomputable def dar (wavelength : ℚ) (zenith_distance : ℝ)
    (temperature pressure vapour_pressure : Option ℚ) : ℝ :=
  206265 *
    ((refractive_index wavelength temperature pressure vapour_pressure
      - refractive_index REFERENCE_WAVELENGTH temperature pressure vapour_pressure : ℚ) : ℝ)
    * Real.tan zenith_distance

/-- C8: `dar` evaluated at the reference wavelength returns exactly 0 for
every zenith distance and every choice (supplied or defaulted) of
temperature, pressure and vapour pressure, because the observed and
reference refractive indices coincide. -/
theorem dar_at_reference_wavelength_eq_zero
    (zenith_distance : ℝ) (temperature pressure vapour_pressure : Option ℚ) :
    dar REFERENCE_WAVELENGTH zenith_distance temperature pressure vapour_pressure = 0 := by
  simp [dar]

/- ----------------------------------------------------------------------
Aperture subgrid (`generate_subgrid`, fluxcal2.py lines 48-64).
`radii = np.arange(0., n_rings) + 0.5`; ring `k` gets
`n_points = np.round(n_inner * radii[k])` sample angles
`theta_ring[j] = 2*pi*j/n_points + rot_angle`, and afterwards
`rot_angle += theta_ring[1] / 2` — note that `theta_ring[1]` is
`2*pi/n_points + rot_angle`, so the accumulated start angle feeds back
into its own increment.  With the defaults (`n_inner = 6`) every
`n_inner * radii[k]` is already an integer, where `np.round`
(half-to-even) and `round` (half-up) agree.
---------------------------------------------------------------------- -/

/-- Points in ring `k`: `np.round(n_inner * (k + 0.5))` (line 55). -/
def subgridNPoints (n_inner : ℕ) (k : ℕ) : ℤ :=
  round ((n_inner : ℚ) * ((k : ℚ) + 1 / 2))

/-- Scaled radius of ring `k`: `(k + 0.5) * fibre_radius / n_rings`
(lines 50 and 61). -/
def subgridRingRadius (fibre_radius : ℚ) (n_rings k : ℕ) : ℚ :=
  ((k : ℚ) + 1 / 2) * fibre_radius / n_rings

/-- The start angle of ring `k`: `rot_angle` at the top of iteration `k`
of the loop, updated by `rot_angle += theta_ring[1] / 2` where
`theta_ring[1] = 2*pi/n_points + rot_angle` (lines 51, 56-57, 60). -/
noncomputable def subgridRotAngle (n_inner : ℕ) : ℕ → ℝ
  | 0 => 0
  | k + 1 => subgridRotAngle n_inner k
      + (2 * Real.pi / (subgridNPoints n_inner k : ℝ) + subgridRotAngle n_inner k) / 2

/-- Angle of sample `j` of ring `k`:
`np.linspace(0, 2*pi, n_points, endpoint=False)[j] + rot_angle`. -/
noncomputable def subgridTheta (n_inner k j : ℕ) : ℝ :=
  2 * Real.pi * j / (subgridNPoints n_inner k : ℝ) + subgridRotAngle n_inner k

/-- The sample offsets contributed by ring `k` (lines 58-59, 61-63):
radius times cosine/sine of the sample angle. -/
noncomputable def subgridRing (fibre_radius : ℚ) (n_inner n_rings k : ℕ) :
    List (ℝ × ℝ) :=
  (List.range (subgridNPoints n_inner k).toNat).map (fun j =>
    (((subgridRingRadius fibre_radius n_rings k : ℚ) : ℝ)
        * Real.cos (subgridTheta n_inner k j),
     ((subgridRingRadius fibre_radius n_rings k : ℚ) : ℝ)
        * Real.sin (subgridTheta n_inner k j)))

/-- `generate_subgrid(fibre_radius, n_inner, n_rings)` (lines 48-64): the
concatenation of all ring samples as `(x, y)` offsets. -/
noncomputable def generate_subgrid (fibre_radius : ℚ) (n_inner n_rings : ℕ) :
    List (ℝ × ℝ) :=
  ((List.range n_rings).map (subgridRing fibre_radius n_inner n_rings)).flatten

theorem subgridNPoints_default (k : ℕ) : subgridNPoints 6 k = 6 * k + 3 := by
  unfold subgridNPoints
  have h : ((6 : ℕ) : ℚ) * ((k : ℚ) + 1 / 2) = ((6 * (k : ℤ) + 3 : ℤ) : ℚ) := by
    push_cast; ring
  rw [h, round_intCast]

theorem subgrid_length (R : ℚ) : (generate_subgrid R 6 10).length = 300 := by
  unfold generate_subgrid
  rw [List.length_flatten]
  have h : ∀ k, (subgridRing R 6 10 k).length = (subgridNPoints 6 k).toNat := by
    intro k; unfold subgridRing; rw [List.length_map, List.length_range]
  simp only [List.map_map]
  have h2 : (List.range 10).map (List.length ∘ subgridRing R 6 10)
      = (List.range 10).map (fun k => (6 * k + 3)) := by
    apply List.map_congr_left
    intro k _
    simp only [Function.comp_apply, h k, subgridNPoints_default]
    omega
  rw [h2]
  decide

theorem subgrid_in_disc (R : ℚ) (hR : 0 < R) :
    ∀ p ∈ generate_subgrid R 6 10, p.1 ^ 2 + p.2 ^ 2 < ((R : ℚ) : ℝ) ^ 2 := by
  intro p hp
  unfold generate_subgrid at hp
  rw [List.mem_flatten] at hp
  obtain ⟨l, hl, hpl⟩ := hp
  rw [List.mem_map] at hl
  obtain ⟨k, hk, rfl⟩ := hl
  rw [List.mem_range] at hk
  unfold subgridRing at hpl
  rw [List.mem_map] at hpl
  obtain ⟨j, _, rfl⟩ := hpl
  set r : ℝ := ((subgridRingRadius R 10 k : ℚ) : ℝ) with hr
  set c := Real.cos (subgridTheta 6 k j)
  set s := Real.sin (subgridTheta 6 k j)
  have hsum : (r * c) ^ 2 + (r * s) ^ 2 = r ^ 2 * (s ^ 2 + c ^ 2) := by ring
  simp only
  rw [hsum, Real.sin_sq_add_cos_sq, mul_one]
  have hrlt : subgridRingRadius R 10 k < R := by
    unfold subgridRingRadius
    rw [div_lt_iff₀ (by norm_num)]
    have hk9 : (k : ℚ) ≤ 9 := by exact_mod_cast Nat.lt_succ_iff.mp hk
    nlinarith
  have hrnn : 0 ≤ subgridRingRadius R 10 k := by
    unfold subgridRingRadius
    positivity
  have hlt' : r < ((R : ℚ) : ℝ) := by rw [hr]; exact_mod_cast hrlt
  have hrnn' : (0:ℝ) ≤ r := by rw [hr]; exact_mod_cast hrnn
  nlinarith

theorem rot_explicit :
    subgridRotAngle 6 1 = Real.pi / 3 ∧ subgridRotAngle 6 2 = 11 * Real.pi / 18 := by
  have h0 : subgridNPoints 6 0 = 3 := by rw [subgridNPoints_default]; norm_num
  have h1 : subgridNPoints 6 1 = 9 := by rw [subgridNPoints_default]; norm_num
  constructor
  · show subgridRotAngle 6 0
        + (2 * Real.pi / (subgridNPoints 6 0 : ℝ) + subgridRotAngle 6 0) / 2 = Real.pi / 3
    rw [show subgridRotAngle 6 0 = 0 from rfl, h0]
    push_cast
    ring
  · show subgridRotAngle 6 1
        + (2 * Real.pi / (subgridNPoints 6 1 : ℝ) + subgridRotAngle 6 1) / 2
        = 11 * Real.pi / 18
    have e1 : subgridRotAngle 6 1 = Real.pi / 3 := by
      show subgridRotAngle 6 0
          + (2 * Real.pi / (subgridNPoints 6 0 : ℝ) + subgridRotAngle 6 0) / 2 = Real.pi / 3
      rw [show subgridRotAngle 6 0 = 0 from rfl, h0]
      push_cast; ring
    rw [e1, h1]
    push_cast
    ring

/-- C5 (amended): with the default settings, `generate_subgrid` produces
10 concentric rings strictly inside the disc of the given radius, with
`round(6 * (k + 0.5)) = 6k + 3` points in ring `k` and 300 points in all
(the point count is the same for every radius, and the generator is a
pure function of radius and ring count).  The start angle of each ring
advances by `pi / n_points(k) + rot_angle(k) / 2` — half of
`theta_ring[1]`, which contains the accumulated start angle itself — and
NOT by half of a ring's angular point spacing; e.g. the accumulated start
angles of rings 1 and 2 are `pi/3` and `11*pi/18`. -/
theorem generate_subgrid_structure (R : ℚ) (hR : 0 < R) :
    (∀ k, subgridNPoints 6 k = 6 * k + 3)
    ∧ (generate_subgrid R 6 10).length = 300
    ∧ (∀ p ∈ generate_subgrid R 6 10, p.1 ^ 2 + p.2 ^ 2 < ((R : ℚ) : ℝ) ^ 2)
    ∧ (∀ k, subgridRotAngle 6 (k + 1) - subgridRotAngle 6 k
        = Real.pi / (subgridNPoints 6 k : ℝ) + subgridRotAngle 6 k / 2)
    ∧ subgridRotAngle 6 1 = Real.pi / 3
    ∧ subgridRotAngle 6 2 = 11 * Real.pi / 18 := by
  refine ⟨subgridNPoints_default, subgrid_length R, subgrid_in_disc R hR, ?_,
    rot_explicit.1, rot_explicit.2⟩
  intro k
  show subgridRotAngle 6 k
      + (2 * Real.pi / (subgridNPoints 6 k : ℝ) + subgridRotAngle 6 k) / 2
      - subgridRotAngle 6 k
      = Real.pi / (subgridNPoints 6 k : ℝ) + subgridRotAngle 6 k / 2
  ring

/-- Witness for C5 at radius 1. -/
theorem generate_subgrid_structure_witness :
    (0 : ℚ) < 1
    ∧ ((∀ k, subgridNPoints 6 k = 6 * k + 3)
      ∧ (generate_subgrid 1 6 10).length = 300
      ∧ (∀ p ∈ generate_subgrid 1 6 10, p.1 ^ 2 + p.2 ^ 2 < (((1 : ℚ) : ℚ) : ℝ) ^ 2)
      ∧ (∀ k, subgridRotAngle 6 (k + 1) - subgridRotAngle 6 k
          = Real.pi / (subgridNPoints 6 k : ℝ) + subgridRotAngle 6 k / 2)
      ∧ subgridRotAngle 6 1 = Real.pi / 3
      ∧ subgridRotAngle 6 2 = 11 * Real.pi / 18) :=
  ⟨by norm_num, generate_subgrid_structure 1 (by norm_num)⟩

/-- C5 counterexample: ring 1 is not rotated relative to ring 0 by half of
ring 1's angular point spacing (`pi / 9`), and ring 2 is not rotated
relative to ring 1 by half of ring 1's spacing either: the actual offsets
are `pi/3` and `5*pi/18`. -/
theorem subgrid_rotation_counterexample :
    subgridRotAngle 6 1 - subgridRotAngle 6 0 ≠ Real.pi / (subgridNPoints 6 1 : ℝ)
    ∧ subgridRotAngle 6 2 - subgridRotAngle 6 1 ≠ Real.pi / (subgridNPoints 6 1 : ℝ) := by
  have h1 : subgridNPoints 6 1 = 9 := by rw [subgridNPoints_default]; norm_num
  have e1 : subgridRotAngle 6 1 = Real.pi / 3 := rot_explicit.1
  have e2 : subgridRotAngle 6 2 = 11 * Real.pi / 18 := rot_explicit.2
  have e0 : subgridRotAngle 6 0 = 0 := rfl
  have hpi := Real.pi_pos
  constructor
  · rw [e1, e0, h1]
    push_cast
    intro hcon
    nlinarith
  · rw [e1, e2, h1]
    push_cast
    intro hcon
    nlinarith

/- ----------------------------------------------------------------------
Flux extractor (`extract_total_flux`, `residual_slice`, fluxcal2.py lines
492-529).  The Moffat model values `moffat_normalised(psf_parameters_slice,
xpos, ypos)` are transcendental in the PSF parameters; since
`moffat_normalised` is evaluated independently per fibre and never reads
the data or variance, the extraction loop is embedded over an arbitrary
per-fibre table of model values (one `List ℚ` per wavelength slice),
which ranges over everything any PSF parameters and fibre positions can
produce.  `scipy.optimize.leastsq` applied to the affine residual
`residual_slice` is embedded as the exact least-squares minimiser from
the normal equations (`lstsqLinear`); the initial guess only matters in
the degenerate case, which is solver-internal and not relied on by any
claim (`lstsq_linear_minimises` below shows the nondegenerate branch is
the true minimiser).
---------------------------------------------------------------------- -/

/-- `residual_slice(flux_background, model, data, variance)` (lines
524-529): `(background + flux * model) - data`.  The variance argument is
accepted and ignored — the weighted residual on line 529 is commented out
in the source. -/
def residual_slice (flux background : ℚ) (model data : List ℚ)
    (_variance : List ℚ) : List ℚ :=
  List.zipWith (fun m d => (background + flux * m) - d) model data

/-- Exact least-squares solution of `residual_slice ≈ 0` for
`(flux, background)` by the 2×2 normal equations; stands in for
`scipy.optimize.leastsq` on this affine residual.  In the degenerate case
(singular normal matrix) the solver's output is implementation-defined
and the initial guess is returned here; no claim depends on that case. -/
def lstsqLinear (guess : ℚ × ℚ) (model data : List ℚ) : ℚ × ℚ :=
  let n : ℚ := data.length
  let sm := model.sum
  let sd := data.sum
  let smm := (model.map (fun m => m * m)).sum
  let smd := (List.zipWith (· * ·) model data).sum
  let denom := n * smm - sm * sm
  if denom = 0 then guess
  else ((n * smd - sm * sd) / denom, (smm * sd - sm * smd) / denom)

/-- `np.where(np.isfinite(data))[0]` (line 504): indices of the fibres
whose data value is finite, in increasing order. -/
def retainedIndices (data : List Fp) : List ℕ :=
  (List.range data.length).filter (fun i => (data.getD i Fp.nan).isFinite)

/-- One iteration of the `extract_total_flux` slice loop (lines 499-521):
drop non-finite fibres, return `(nan, nan)` when at most 30 remain,
otherwise fit `(flux, background)` by least squares with initial guess
`(sum of retained data, 0)`. -/
def extract_slice (model : List ℚ) (data variance : List Fp) : Fp × Fp :=
  let good := retainedIndices data
  if 30 < good.length then
    let dataGood := good.map (fun i => (data.getD i Fp.nan).val)
    let _varianceGood := good.map (fun i => variance.getD i Fp.nan)
    let modelGood := good.map (fun i => model.getD i 0)
    let guess : ℚ × ℚ := (dataGood.sum, 0)
    let fit := lstsqLinear guess modelGood dataGood
    (Fp.fin fit.1, Fp.fin fit.2)
  else (Fp.nan, Fp.nan)

/-- `extract_total_flux(ifu, psf_parameters, model_name)` (lines 492-522):
loop over all wavelength slices, collecting per-slice flux and background.
`modelSlices` is the per-slice fibre-integrated PSF evaluation,
`dataSlices`/`varianceSlices` are the per-slice columns of `ifu.data` and
`ifu.var`. -/
def extract_total_flux (modelSlices : List (List ℚ))
    (dataSlices varianceSlices : List (List Fp)) : List Fp × List Fp :=
  let results := (List.range modelSlices.length).map (fun i =>
    extract_slice (modelSlices.getD i []) (dataSlices.getD i [])
      (varianceSlices.getD i []))
  (results.map Prod.fst, results.map Prod.snd)

/-- The result of a slice extraction does not inspect the variance column. -/
theorem extract_slice_variance_irrel (model : List ℚ) (data v1 v2 : List Fp) :
    extract_slice model data v1 = extract_slice model data v2 := rfl

/-- C7: the per-slice extraction residual is unweighted — the output of
`extract_total_flux` is identical for any two variance inputs, for every
per-slice model-value table (hence for every PSF parameter set, model
name and fibre geometry) and every data tube. -/
theorem extract_total_flux_ignores_variance (modelSlices : List (List ℚ))
    (dataSlices v1 v2 : List (List Fp)) :
    extract_total_flux modelSlices dataSlices v1
      = extract_total_flux modelSlices dataSlices v2 := rfl

/-- Sum of squares of the slice residual: the objective that
`scipy.optimize.leastsq` minimises for `residual_slice`. -/
def sseSlice (f b : ℚ) (model data : List ℚ) : ℚ :=
  ((residual_slice f b model data []).map (fun r => r ^ 2)).sum

theorem sse_expand (f b : ℚ) : ∀ (model data : List ℚ),
    model.length = data.length →
    sseSlice f b model data
      = (data.length : ℚ) * b ^ 2 + f ^ 2 * (model.map (fun m => m * m)).sum
        + (data.map (fun d => d * d)).sum
        + 2 * (f * b * model.sum - b * data.sum
               - f * (List.zipWith (· * ·) model data).sum)
  | [], [], _ => by simp [sseSlice, residual_slice]
  | m :: ms, d :: ds, h => by
    have ih := sse_expand f b ms ds (by simpa using h)
    simp only [sseSlice, residual_slice, List.zipWith_cons_cons, List.map_cons,
      List.sum_cons, List.length_cons] at ih ⊢
    rw [show ((ds.length + 1 : ℕ) : ℚ) = (ds.length : ℚ) + 1 by push_cast; ring]
    nlinarith [ih]
  | [], _ :: _, h => by simp at h
  | _ :: _, [], h => by simp at h

-- Cauchy-Schwarz for the normal matrix determinant
theorem sum_centered_sq (c : ℚ) : ∀ (l : List ℚ),
    (l.map (fun x => (x - c) ^ 2)).sum
      = (l.map (fun x => x * x)).sum - 2 * c * l.sum + (l.length : ℚ) * c ^ 2
  | [] => by simp
  | x :: xs => by
    have ih := sum_centered_sq c xs
    simp only [List.map_cons, List.sum_cons, List.length_cons]
    rw [ih]
    push_cast
    ring

theorem normal_det_nonneg : ∀ (l : List ℚ),
    0 ≤ (l.length : ℚ) * (l.map (fun x => x * x)).sum - l.sum * l.sum
  | [] => by simp
  | x :: xs => by
    have ih := normal_det_nonneg xs
    have h2 : 0 ≤ (xs.map (fun y => (y - x) ^ 2)).sum := by
      apply List.sum_nonneg; intro z hz; simp only [List.mem_map] at hz
      obtain ⟨y, _, rfl⟩ := hz; positivity
    rw [sum_centered_sq x xs] at h2
    simp only [List.length_cons, List.map_cons, List.sum_cons]
    push_cast
    nlinarith [ih, h2]

theorem quad_min_aux (n sm smm sd smd f b : ℚ) (hn : 0 < n)
    (hdpos : 0 < n * smm - sm * sm) :
    n * ((smm*sd - sm*smd)/(n*smm - sm*sm)) ^ 2
      + ((n*smd - sm*sd)/(n*smm - sm*sm)) ^ 2 * smm
      + 2 * (((n*smd - sm*sd)/(n*smm - sm*sm)) * ((smm*sd - sm*smd)/(n*smm - sm*sm)) * sm
             - ((smm*sd - sm*smd)/(n*smm - sm*sm)) * sd
             - ((n*smd - sm*sd)/(n*smm - sm*sm)) * smd)
      ≤ n * b ^ 2 + f ^ 2 * smm + 2 * (f * b * sm - b * sd - f * smd) := by
  rw [← sub_nonneg]
  have hdne : n * smm - sm * sm ≠ 0 := ne_of_gt hdpos
  have key : n * b ^ 2 + f ^ 2 * smm + 2 * (f * b * sm - b * sd - f * smd)
      - (n * ((smm*sd - sm*smd)/(n*smm - sm*sm)) ^ 2
        + ((n*smd - sm*sd)/(n*smm - sm*sm)) ^ 2 * smm
        + 2 * (((n*smd - sm*sd)/(n*smm - sm*sm)) * ((smm*sd - sm*smd)/(n*smm - sm*sm)) * sm
               - ((smm*sd - sm*smd)/(n*smm - sm*sm)) * sd
               - ((n*smd - sm*sd)/(n*smm - sm*sm)) * smd))
      = ((n*smm - sm*sm) * (n*b + sm*f - sd) ^ 2
          + ((n*smm - sm*sm)*f - (n*smd - sm*sd)) ^ 2) / (n * (n*smm - sm*sm)) := by
    field_simp
    ring
  rw [key]
  apply div_nonneg
  · exact add_nonneg (mul_nonneg hdpos.le (sq_nonneg _)) (sq_nonneg _)
  · exact (mul_pos hn hdpos).le

theorem lstsq_linear_minimises (guess : ℚ × ℚ) (model data : List ℚ)
    (hlen : model.length = data.length)
    (hd : (data.length : ℚ) * (model.map (fun m => m * m)).sum
      - model.sum * model.sum ≠ 0) (f b : ℚ) :
    sseSlice (lstsqLinear guess model data).1 (lstsqLinear guess model data).2 model data
      ≤ sseSlice f b model data := by
  have hv : lstsqLinear guess model data
      = (((data.length : ℚ) * (List.zipWith (· * ·) model data).sum - model.sum * data.sum)
            / ((data.length : ℚ) * (model.map (fun m => m * m)).sum - model.sum * model.sum),
         ((model.map (fun m => m * m)).sum * data.sum
            - model.sum * (List.zipWith (· * ·) model data).sum)
            / ((data.length : ℚ) * (model.map (fun m => m * m)).sum - model.sum * model.sum)) := by
    unfold lstsqLinear
    simp only [if_neg hd]
  have hn : (0:ℚ) < data.length := by
    rcases data with _ | ⟨d, ds⟩
    · exfalso
      have hm : model = [] := List.length_eq_zero.mp (by simpa using hlen)
      subst hm
      simp at hd
    · have : (0:ℚ) < ((ds.length + 1 : ℕ) : ℚ) := by
        exact_mod_cast Nat.succ_pos ds.length
      simpa using this
  have hdnn : 0 ≤ (data.length : ℚ) * (model.map (fun m => m * m)).sum
      - model.sum * model.sum := by
    have h0 := normal_det_nonneg model
    rw [hlen] at h0
    exact h0
  have hdpos : 0 < (data.length : ℚ) * (model.map (fun m => m * m)).sum
      - model.sum * model.sum := lt_of_le_of_ne hdnn (Ne.symm hd)
  rw [sse_expand f b model data hlen, hv,
    sse_expand _ _ model data hlen]
  have h := quad_min_aux (data.length : ℚ) model.sum (model.map (fun m => m * m)).sum
    data.sum (List.zipWith (· * ·) model data).sum f b hn hdpos
  linarith

/-- C2: in each slice of `extract_total_flux`, fibres with non-finite data
are dropped (`retainedIndices`); with at most 30 finite fibres left the
slice result is `(nan, nan)` and the loop continues (every slice produces
a result, so both output arrays span all slices); with at least 31 finite
fibres the slice gets the values of the two-parameter least-squares solve
over the retained fibres, started from the guess
`(sum of retained data, 0)` — in particular a pair of finite values. -/
theorem extract_slice_threshold_policy (model : List ℚ) (data variance : List Fp)
    (modelSlices : List (List ℚ)) (dataSlices varianceSlices : List (List Fp)) :
    ((retainedIndices data).length < 31 →
      extract_slice model data variance = (Fp.nan, Fp.nan))
    ∧ (31 ≤ (retainedIndices data).length →
      extract_slice model data variance
        = (Fp.fin (lstsqLinear
              (((retainedIndices data).map (fun i => (data.getD i Fp.nan).val)).sum, 0)
              ((retainedIndices data).map (fun i => model.getD i 0))
              ((retainedIndices data).map (fun i => (data.getD i Fp.nan).val))).1,
           Fp.fin (lstsqLinear
              (((retainedIndices data).map (fun i => (data.getD i Fp.nan).val)).sum, 0)
              ((retainedIndices data).map (fun i => model.getD i 0))
              ((retainedIndices data).map (fun i => (data.getD i Fp.nan).val))).2))
    ∧ (extract_total_flux modelSlices dataSlices varianceSlices).1.length
        = modelSlices.length
    ∧ (extract_total_flux modelSlices dataSlices varianceSlices).2.length
        = modelSlices.length := by
  refine ⟨?_, ?_, ?_, ?_⟩
  · intro h
    unfold extract_slice
    rw [if_neg (by omega)]
  · intro h
    unfold extract_slice
    rw [if_pos (by omega)]
  · simp [extract_total_flux]
  · simp [extract_total_flux]

/-- Witness for C2: a slice with 31 fibres one of which is NaN retains
exactly 30 and yields `(nan, nan)`; a slice with 31 finite fibres yields
the finite least-squares pair. -/
theorem extract_slice_threshold_policy_witness :
    ((retainedIndices (Fp.nan :: (List.range 30).map (fun i => Fp.fin ((i : ℚ) + 1)))).length < 31
      ∧ extract_slice ((List.range 31).map (fun i => (i : ℚ)))
          (Fp.nan :: (List.range 30).map (fun i => Fp.fin ((i : ℚ) + 1))) []
          = (Fp.nan, Fp.nan))
    ∧ (31 ≤ (retainedIndices ((List.range 31).map (fun i => Fp.fin ((i : ℚ) + 1)))).length
      ∧ extract_slice ((List.range 31).map (fun i => (i : ℚ)))
          ((List.range 31).map (fun i => Fp.fin ((i : ℚ) + 1))) []
          = (Fp.fin (lstsqLinear
                (((retainedIndices ((List.range 31).map (fun i => Fp.fin ((i : ℚ) + 1)))).map
                    (fun i => (((List.range 31).map (fun i => Fp.fin ((i : ℚ) + 1))).getD i Fp.nan).val)).sum, 0)
                ((retainedIndices ((List.range 31).map (fun i => Fp.fin ((i : ℚ) + 1)))).map
                    (fun i => (((List.range 31).map (fun i => (i : ℚ))).getD i 0)))
                ((retainedIndices ((List.range 31).map (fun i => Fp.fin ((i : ℚ) + 1)))).map
                    (fun i => (((List.range 31).map (fun i => Fp.fin ((i : ℚ) + 1))).getD i Fp.nan).val))).1,
             Fp.fin (lstsqLinear
                (((retainedIndices ((List.range 31).map (fun i => Fp.fin ((i : ℚ) + 1)))).map
                    (fun i => (((List.range 31).map (fun i => Fp.fin ((i : ℚ) + 1))).getD i Fp.nan).val)).sum, 0)
                ((retainedIndices ((List.range 31).map (fun i => Fp.fin ((i : ℚ) + 1)))).map
                    (fun i => (((List.range 31).map (fun i => (i : ℚ))).getD i 0)))
                ((retainedIndices ((List.range 31).map (fun i => Fp.fin ((i : ℚ) + 1)))).map
                    (fun i => (((List.range 31).map (fun i => Fp.fin ((i : ℚ) + 1))).getD i Fp.nan).val))).2)) :=
  ⟨⟨by decide,
    (extract_slice_threshold_policy _ _ [] [] [] []).1 (by decide)⟩,
   ⟨by decide,
    (extract_slice_threshold_policy _ _ [] [] [] []).2.1 (by decide)⟩⟩

/- ----------------------------------------------------------------------
Transfer-function smoothing (`smooth_ratio`, fluxcal2.py lines 617-645).
The pipeline is embedded stage by stage; `scipy.ndimage.gaussian_filter1d`
is transcendental (Gaussian kernel) and enters as an arbitrary
length-preserving function parameter `gaussian1d`.
---------------------------------------------------------------------- -/

/-- numpy slice assignment `l[start : start + len(vals)] = vals`.  All uses
in this file satisfy `start + len(vals) <= len l`, where this agrees with
numpy (out-of-range assignments raise there). -/
def setSlice {α : Type} (l : List α) (start : ℕ) (vals : List α) : List α :=
  l.take start ++ vals ++ l.drop (start + vals.length)

/-- Python extended slice `l[start:stop:-1]` (step −1): negative indices
are offset by `len l`, the start is clamped to the last index, the stop
to −1, and elements are read downwards exclusive of the stop. -/
def pySliceRev (l : List ℚ) (start stop : ℤ) : List ℚ :=
  let n : ℤ := l.length
  let s0 := if start < 0 then start + n else start
  let s1 := min s0 (n - 1)
  let e0 := if stop < 0 then stop + n else stop
  let e1 := max e0 (-1)
  (List.range (s1 - e1).toNat).map (fun k : ℕ => l.getD (s1 - (k : ℤ)).toNat 0)

/-- Segment scan for `np.interp`: find the segment containing `x` and
interpolate linearly; at or beyond the last knot return the last value. -/
def interpSeg (x : ℚ) : List (ℚ × ℚ) → ℚ
  | [] => 0
  | [(_, f)] => f
  | (a, f) :: (b, g) :: rest =>
    if x < b then f + (x - a) * (g - f) / (b - a) else interpSeg x ((b, g) :: rest)

/-- `np.interp(x, xp, fp)` with the default edge handling (clamp to the
first/last value) for increasing `xp`. -/
def npInterpVal (x : ℚ) (xp fp : List ℚ) : ℚ :=
  match xp, fp with
  | a :: arest, f :: frest =>
    if x < a then f else interpSeg x ((a :: arest).zip (f :: frest))
  | _, _ => 0

/-- `inverse = 1.0 / ratio` (line 621). -/
def smoothInverse (ratio : List Fp) : List Fp := ratio.map Fp.recip

/-- `useful = np.where(np.isfinite(inverse))[0]` (line 623). -/
def smoothUseful (ratio : List Fp) : List ℕ := retainedIndices (smoothInverse ratio)

/-- `inverse_cut = inverse[useful[0]:useful[-1]+1]` (line 624). -/
def smoothInverseCut (ratio : List Fp) : List Fp :=
  ((smoothInverse ratio).drop ((smoothUseful ratio).headD 0)).take
    ((smoothUseful ratio).getLastD 0 + 1 - (smoothUseful ratio).headD 0)

/-- `inverse_cut` with interior non-finite entries replaced by linear
interpolation over the finite ones (lines 625-627). -/
def smoothInterpolated (ratio : List Fp) : List ℚ :=
  let cut := smoothInverseCut ratio
  let goodIdx := retainedIndices cut
  (List.range cut.length).map (fun j =>
    if (cut.getD j Fp.nan).isFinite then (cut.getD j Fp.nan).val
    else npInterpVal (j : ℚ) (goodIdx.map (fun i => (i : ℚ)))
          (goodIdx.map (fun i => (cut.getD i Fp.nan).val)))

/-- `extra = int(np.round(3.0 * width))` (line 630). -/
def smoothExtra (width : ℚ) : ℕ := (round (3 * width)).toNat

/-- Lines 631-635: `np.hstack((zeros(extra), inverse_cut, zeros(extra)))`
followed by the two mirrored-end assignments
`inverse_extended[:extra] = 2*inverse_cut[0] - inverse_cut[extra+1:1:-1]`
and
`inverse_extended[-extra:] = 2*inverse_cut[-1] - inverse_cut[-1:-(extra+1):-1]`. -/
def mirrorExtend (c : List ℚ) (extra : ℕ) : List ℚ :=
  let ext0 := List.replicate extra (0 : ℚ) ++ c ++ List.replicate extra 0
  let leftvals := (pySliceRev c ((extra : ℤ) + 1) 1).map (fun v => 2 * c.headD 0 - v)
  let rightvals :=
    (pySliceRev c (-1) (-((extra : ℤ) + 1))).map (fun v => 2 * c.getLastD 0 - v)
  let ext1 := setSlice ext0 0 leftvals
  setSlice ext1 (ext1.length - extra) rightvals

/-- `smooth_ratio(ratio, width=10.0)` (lines 617-645): invert, trim and
fill non-finite entries, mirror-extend, smooth with a Gaussian kernel
(`gaussian1d`, abstract), cut the extension off (`[extra:-extra]`), write
the smoothed block back over `inverse[useful[0]:useful[-1]+1]`, and
invert again. -/
def smooth_ratio (gaussian1d : List ℚ → List ℚ) (width : ℚ) (ratio : List Fp) :
    List Fp :=
  let extra := smoothExtra width
  let extended := mirrorExtend (smoothInterpolated ratio) extra
  let smoothedExt := gaussian1d extended
  let inverse_smoothed := (smoothedExt.drop extra).take (smoothedExt.length - 2 * extra)
  let inverse2 := setSlice (smoothInverse ratio) ((smoothUseful ratio).headD 0)
    (inverse_smoothed.map Fp.fin)
  inverse2.map Fp.recip

/-- `getD` through a `map` over `List.range`. -/
theorem getD_map_range (f : ℕ → ℚ) {n i : ℕ} (hi : i < n) :
    ((List.range n).map f).getD i 0 = f i := by
  rw [List.getD_eq_getElem?_getD, List.getElem?_map, List.getElem?_range hi]
  rfl

/-- `getD` of a `take` below the cut. -/
theorem getD_take_lt {α : Type} (l : List α) (i n : ℕ) (d : α) (h : i < n) :
    (l.take n).getD i d = l.getD i d := by
  rw [List.getD_eq_getElem?_getD, List.getD_eq_getElem?_getD, List.getElem?_take,
    if_pos h]

/-- `getD` of a `drop`. -/
theorem getD_drop_add {α : Type} (l : List α) (i n : ℕ) (d : α) :
    (l.drop n).getD i d = l.getD (n + i) d := by
  rw [List.getD_eq_getElem?_getD, List.getD_eq_getElem?_getD, List.getElem?_drop]

/-- `getD` through a `map` at an in-range index (the default is free). -/
theorem getD_map_lt {α β : Type} (f : α → β) (l : List α) (i : ℕ)
    (hi : i < l.length) (d : β) (e : α) :
    (l.map f).getD i d = f (l.getD i e) := by
  rw [List.getD_eq_getElem?_getD, List.getElem?_map, List.getD_eq_getElem?_getD,
    List.getElem?_eq_getElem hi]
  rfl

/-- `retainedIndices` (np.where over a boolean mask of a range) is strictly
increasing. -/
theorem retainedIndices_pairwise (l : List Fp) :
    (retainedIndices l).Pairwise (· < ·) :=
  List.Pairwise.filter _ (List.pairwise_lt_range _)

/-- Membership in `retainedIndices`. -/
theorem mem_retainedIndices (l : List Fp) (i : ℕ) :
    i ∈ retainedIndices l ↔ i < l.length ∧ (l.getD i Fp.nan).isFinite := by
  simp [retainedIndices, List.mem_filter, List.mem_range]

/-- In a strictly increasing list the head bounds every member. -/
theorem pairwise_headD_le {l : List ℕ} (hp : l.Pairwise (· < ·)) {x : ℕ}
    (hx : x ∈ l) : l.headD 0 ≤ x := by
  cases l with
  | nil => simp at hx
  | cons a t =>
    rcases List.mem_cons.mp hx with rfl | hxt
    · simp
    · have := (List.pairwise_cons.mp hp).1 x hxt
      simp
      omega

/-- In a strictly increasing list every member is bounded by the last. -/
theorem pairwise_le_getLastD : ∀ {l : List ℕ}, l.Pairwise (· < ·) →
    ∀ {x : ℕ}, x ∈ l → x ≤ l.getLastD 0
  | [], _, x, hx => absurd hx (List.not_mem_nil x)
  | [a], _, x, hx => by
    simp at hx
    simp [hx]
  | a :: b :: t, hp, x, hx => by
    have hcons := List.pairwise_cons.mp hp
    have hp' : (b :: t).Pairwise (· < ·) := hcons.2
    have hlast : (a :: b :: t).getLastD 0 = (b :: t).getLastD 0 := rfl
    rw [hlast]
    rcases List.mem_cons.mp hx with rfl | hxt
    · have hb : x < b := hcons.1 b (by simp)
      have := pairwise_le_getLastD hp' (show b ∈ b :: t by simp)
      omega
    · exact pairwise_le_getLastD hp' hxt

theorem pySliceRev_left (c : List ℚ) (extra : ℕ) (h : extra + 2 ≤ c.length) :
    pySliceRev c ((extra : ℤ) + 1) 1
      = (List.range extra).map (fun k => c.getD (extra + 1 - k) 0) := by
  simp only [pySliceRev]
  rw [if_neg (by omega), if_neg (by omega),
    min_eq_left (by omega), max_eq_left (by omega),
    show ((extra : ℤ) + 1 - 1).toNat = extra by omega]
  apply List.map_congr_left
  intro k hk
  rw [List.mem_range] at hk
  congr 1
  omega

theorem pySliceRev_right (c : List ℚ) (extra : ℕ) (h : extra + 2 ≤ c.length) :
    pySliceRev c (-1) (-((extra : ℤ) + 1))
      = (List.range extra).map (fun k => c.getD (c.length - 1 - k) 0) := by
  simp only [pySliceRev]
  rw [if_pos (by omega), if_pos (by omega),
    min_eq_left (by omega), max_eq_left (by omega),
    show (-1 + (c.length : ℤ) - (-((extra : ℤ) + 1) + (c.length : ℤ))).toNat = extra by omega]
  apply List.map_congr_left
  intro k hk
  rw [List.mem_range] at hk
  congr 1
  omega

/-- Resolved form of the mirror extension: left pad, original signal,
right pad, with both pads written out pointwise. -/
theorem mirrorExtend_eq (c : List ℚ) (extra : ℕ) (h : extra + 2 ≤ c.length) :
    mirrorExtend c extra
      = ((List.range extra).map (fun k => 2 * c.headD 0 - c.getD (extra + 1 - k) 0))
        ++ c
        ++ ((List.range extra).map
            (fun k => 2 * c.getLastD 0 - c.getD (c.length - 1 - k) 0)) := by
  unfold mirrorExtend
  rw [pySliceRev_left c extra h, pySliceRev_right c extra h]
  have hleft : ((List.range extra).map (fun k => c.getD (extra + 1 - k) 0)).map
      (fun v => 2 * c.headD 0 - v)
      = (List.range extra).map (fun k => 2 * c.headD 0 - c.getD (extra + 1 - k) 0) := by
    rw [List.map_map]; rfl
  have hright : ((List.range extra).map (fun k => c.getD (c.length - 1 - k) 0)).map
      (fun v => 2 * c.getLastD 0 - v)
      = (List.range extra).map (fun k => 2 * c.getLastD 0 - c.getD (c.length - 1 - k) 0) := by
    rw [List.map_map]; rfl
  rw [hleft, hright]
  set L := (List.range extra).map (fun k => 2 * c.headD 0 - c.getD (extra + 1 - k) 0)
    with hL
  set R := (List.range extra).map (fun k => 2 * c.getLastD 0 - c.getD (c.length - 1 - k) 0)
    with hR
  have hLlen : L.length = extra := by rw [hL]; simp
  have hRlen : R.length = extra := by rw [hR]; simp
  unfold setSlice
  simp only [List.take_zero, List.nil_append, Nat.zero_add, hLlen]
  have hdrop : (List.replicate extra (0:ℚ) ++ c ++ List.replicate extra 0).drop extra
      = c ++ List.replicate extra 0 := by
    rw [List.append_assoc]
    exact List.drop_left' (by simp)
  rw [hdrop]
  have hlen1 : (L ++ (c ++ List.replicate extra 0)).length = extra + (c.length + extra) := by
    simp [hLlen]
  rw [hlen1, hRlen]
  have hpos : extra + (c.length + extra) - extra = extra + c.length := by omega
  rw [hpos]
  have htake : (L ++ (c ++ List.replicate extra 0)).take (extra + c.length) = L ++ c := by
    rw [← List.append_assoc]
    rw [List.take_append_of_le_length (by simp [hLlen])]
    rw [List.take_of_length_le (by simp [hLlen])]
  have hdrop2 : (L ++ (c ++ List.replicate extra 0)).drop (extra + c.length + extra) = [] := by
    apply List.drop_eq_nil_of_le
    simp [hLlen]
    omega
  rw [htake, hdrop2, List.append_nil, List.append_assoc]

/-- C6 (amended): `smooth_ratio` pads the trimmed reciprocal signal `c` on
both ends by `extra = round(3 * width)` samples (`mirrorExtend`, applied
to `smoothInterpolated ratio`), leaving the middle copy of `c` unchanged;
but the pads are one sample off a point reflection about the edge
samples: the left pad holds `2*c[0] - c[extra+1-i]` at position
`i < extra` (position `extra - 1`, adjacent to the edge, reflects to
`c[2]`, skipping `c[1]`), and the right pad holds
`2*c[last] - c[len-1-k]` at offset `k` (its first entry duplicates the
edge sample `c[last]`). -/
theorem smooth_ratio_mirror_pad (c : List ℚ) (extra : ℕ) (h : extra + 2 ≤ c.length) :
    (mirrorExtend c extra).length = c.length + 2 * extra
    ∧ (∀ j < c.length, (mirrorExtend c extra).getD (extra + j) 0 = c.getD j 0)
    ∧ (∀ i < extra, (mirrorExtend c extra).getD i 0
        = 2 * c.headD 0 - c.getD (extra + 1 - i) 0)
    ∧ (∀ k < extra, (mirrorExtend c extra).getD (extra + c.length + k) 0
        = 2 * c.getLastD 0 - c.getD (c.length - 1 - k) 0) := by
  rw [mirrorExtend_eq c extra h]
  set L := (List.range extra).map (fun k => 2 * c.headD 0 - c.getD (extra + 1 - k) 0)
    with hL
  set R := (List.range extra).map (fun k => 2 * c.getLastD 0 - c.getD (c.length - 1 - k) 0)
    with hR
  have hLlen : L.length = extra := by rw [hL]; simp
  have hRlen : R.length = extra := by rw [hR]; simp
  refine ⟨?_, ?_, ?_, ?_⟩
  · simp only [List.length_append, hLlen, hRlen]
    omega
  · intro j hj
    rw [List.getD_append _ _ _ _ (by simp only [List.length_append, hLlen]; omega),
      List.getD_append_right _ _ _ _ (by omega)]
    congr 1
    omega
  · intro i hi
    rw [List.getD_append _ _ _ _ (by simp only [List.length_append, hLlen]; omega),
      List.getD_append _ _ _ _ (by omega), hL, getD_map_range _ hi]
  · intro k hk
    rw [List.getD_append_right _ _ _ _ (by simp only [List.length_append, hLlen]; omega)]
    have hidx : extra + c.length + k - (L ++ c).length = k := by
      simp only [List.length_append, hLlen]
      omega
    rw [hidx, hR, getD_map_range _ hk]

/-- Witness for C6's amended padding formulas on a five-sample signal with
three pad samples. -/
theorem smooth_ratio_mirror_pad_witness :
    3 + 2 ≤ ([1, 2, 3, 4, 5] : List ℚ).length
    ∧ ((mirrorExtend [1, 2, 3, 4, 5] 3).length = ([1, 2, 3, 4, 5] : List ℚ).length + 2 * 3
      ∧ (∀ j < ([1, 2, 3, 4, 5] : List ℚ).length,
          (mirrorExtend [1, 2, 3, 4, 5] 3).getD (3 + j) 0
            = ([1, 2, 3, 4, 5] : List ℚ).getD j 0)
      ∧ (∀ i < 3, (mirrorExtend [1, 2, 3, 4, 5] 3).getD i 0
          = 2 * ([1, 2, 3, 4, 5] : List ℚ).headD 0
            - ([1, 2, 3, 4, 5] : List ℚ).getD (3 + 1 - i) 0)
      ∧ (∀ k < 3, (mirrorExtend [1, 2, 3, 4, 5] 3).getD
            (3 + ([1, 2, 3, 4, 5] : List ℚ).length + k) 0
          = 2 * ([1, 2, 3, 4, 5] : List ℚ).getLastD 0
            - ([1, 2, 3, 4, 5] : List ℚ).getD (([1, 2, 3, 4, 5] : List ℚ).length - 1 - k) 0)) :=
  ⟨by decide, smooth_ratio_mirror_pad [1, 2, 3, 4, 5] 3 (by decide)⟩

/-- C6 counterexample: for the 33-sample ratio `1/(j+1)` (reciprocal
signal `c = [1, 2, ..., 33]`) and the default kernel width 10
(`extra = 30`), the left pad sample adjacent to the edge (position 29) is
`2*c[0] - c[2] = -1`, while point reflection about the first valid sample
demands `2*c[0] - c[extra - 29] = 2*c[0] - c[1] = 0`. -/
theorem smooth_ratio_mirror_pad_counterexample :
    (mirrorExtend
        (smoothInterpolated ((List.range 33).map (fun j : ℕ => Fp.fin (1 / ((j : ℚ) + 1)))))
        (smoothExtra 10)).getD 29 0 = -1
    ∧ 2 * (smoothInterpolated
          ((List.range 33).map (fun j : ℕ => Fp.fin (1 / ((j : ℚ) + 1))))).headD 0
       - (smoothInterpolated
          ((List.range 33).map (fun j : ℕ => Fp.fin (1 / ((j : ℚ) + 1))))).getD
            (smoothExtra 10 - 29) 0 = 0
    ∧ (-1 : ℚ) ≠ 0 := by
  refine ⟨by with_unfolding_all rfl, by with_unfolding_all rfl, by norm_num⟩

/-- The head of a nonempty list is a member. -/
theorem headD_mem {l : List ℕ} (h : l ≠ []) : l.headD 0 ∈ l := by
  cases l with
  | nil => exact absurd rfl h
  | cons a t => simp

/-- The `getLastD` of a nonempty list is a member. -/
theorem getLastD_mem : ∀ {l : List ℕ}, l ≠ [] → l.getLastD 0 ∈ l
  | [], h => absurd rfl h
  | [a], _ => by simp
  | a :: b :: t, _ => by
    have hstep : (a :: b :: t).getLastD 0 = (b :: t).getLastD 0 := rfl
    rw [hstep]
    exact List.mem_cons_of_mem a (getLastD_mem (by simp))

/-- `smooth_ratio` with its local bindings substituted. -/
theorem smooth_ratio_def (g : List ℚ → List ℚ) (w : ℚ) (r : List Fp) :
    smooth_ratio g w r
      = (setSlice (smoothInverse r) ((smoothUseful r).headD 0)
          ((((g (mirrorExtend (smoothInterpolated r) (smoothExtra w))).drop
              (smoothExtra w)).take
            ((g (mirrorExtend (smoothInterpolated r) (smoothExtra w))).length
              - 2 * smoothExtra w)).map Fp.fin)).map Fp.recip := rfl

/-- C10: `smooth_ratio` preserves the array length, and at every position
outside the block between the first and last finite entries of
`1.0/ratio` the output is `1.0/(1.0/ratio)` of the input at that
position, untouched by the smoothing (for any length-preserving smoothing
kernel in place of `gaussian_filter1d`). -/
theorem smooth_ratio_frame (gaussian1d : List ℚ → List ℚ) (width : ℚ) (ratio : List Fp)
    (hg : ∀ l, (gaussian1d l).length = l.length)
    (hne : smoothUseful ratio ≠ [])
    (hcut : smoothExtra width + 2 ≤ (smoothInverseCut ratio).length) :
    (smooth_ratio gaussian1d width ratio).length = ratio.length
    ∧ (∀ i < (smoothUseful ratio).headD 0,
        (smooth_ratio gaussian1d width ratio).getD i Fp.nan
          = Fp.recip (Fp.recip (ratio.getD i Fp.nan)))
    ∧ (∀ i, (smoothUseful ratio).getLastD 0 < i → i < ratio.length →
        (smooth_ratio gaussian1d width ratio).getD i Fp.nan
          = Fp.recip (Fp.recip (ratio.getD i Fp.nan))) := by
  set n := ratio.length with hn
  set lo := (smoothUseful ratio).headD 0 with hlo
  set hi := (smoothUseful ratio).getLastD 0 with hhi
  set E := smoothExtra width with hE
  have hinvlen : (smoothInverse ratio).length = n := by
    simp [smoothInverse, hn]
  have hhi_mem : hi ∈ smoothUseful ratio := getLastD_mem hne
  have hhi_lt : hi < n := by
    have h1 := (mem_retainedIndices _ _).mp hhi_mem
    rw [hinvlen] at h1
    exact h1.1
  have hlo_le_hi : lo ≤ hi := pairwise_headD_le (retainedIndices_pairwise _) hhi_mem
  have hcutlen : (smoothInverseCut ratio).length = hi + 1 - lo := by
    unfold smoothInverseCut
    rw [List.length_take, List.length_drop, hinvlen, ← hlo, ← hhi]
    omega
  set L := hi + 1 - lo with hL
  have hreplen : (smoothInterpolated ratio).length = L := by
    unfold smoothInterpolated
    simp only [List.length_map, List.length_range]
    rw [hcutlen]
  have hEL : E + 2 ≤ L := by
    rw [← hcutlen]
    exact hcut
  have hextlen : (mirrorExtend (smoothInterpolated ratio) E).length = L + 2 * E := by
    rw [mirrorExtend_eq _ _ (by rw [hreplen]; exact hEL)]
    simp only [List.length_append, List.length_map, List.length_range, hreplen]
    omega
  have hglen : (gaussian1d (mirrorExtend (smoothInterpolated ratio) E)).length
      = L + 2 * E := by rw [hg, hextlen]
  have hsmolen : ((((gaussian1d (mirrorExtend (smoothInterpolated ratio) E)).drop E).take
      ((gaussian1d (mirrorExtend (smoothInterpolated ratio) E)).length - 2 * E)).map
        Fp.fin).length = L := by
    simp only [List.length_map, List.length_take, List.length_drop, hglen]
    omega
  rw [smooth_ratio_def, ← hlo, ← hE]
  set vals := (((gaussian1d (mirrorExtend (smoothInterpolated ratio) E)).drop E).take
      ((gaussian1d (mirrorExtend (smoothInterpolated ratio) E)).length - 2 * E)).map
        Fp.fin with hvals
  have hvalslen : vals.length = L := hsmolen
  have hloL : lo + L = hi + 1 := by omega
  have hsslen : (setSlice (smoothInverse ratio) lo vals).length = n := by
    unfold setSlice
    simp only [List.length_append, List.length_take, List.length_drop, hinvlen,
      hvalslen]
    omega
  have hkey : ∀ i, i < lo ∨ (hi < i ∧ i < n) →
      (setSlice (smoothInverse ratio) lo vals).getD i Fp.nan
        = (smoothInverse ratio).getD i Fp.nan := by
    intro i hcase
    unfold setSlice
    rcases hcase with hilt | ⟨hgt, hltn⟩
    · rw [List.getD_append _ _ _ _ (by
        simp only [List.length_append, List.length_take, hinvlen]
        omega)]
      rw [List.getD_append _ _ _ _ (by
        simp only [List.length_take, hinvlen]
        omega)]
      exact getD_take_lt _ _ _ _ hilt
    · rw [List.getD_append_right _ _ _ _ (by
        simp only [List.length_append, List.length_take, hinvlen, hvalslen]
        omega)]
      rw [getD_drop_add]
      congr 1
      simp only [List.length_append, List.length_take, hinvlen, hvalslen]
      omega
  refine ⟨?_, ?_, ?_⟩
  · rw [List.length_map, hsslen]
  · intro i hilt
    rw [getD_map_lt _ _ _ (by rw [hsslen]; omega) _ Fp.nan,
      hkey i (Or.inl hilt)]
    unfold smoothInverse
    rw [getD_map_lt _ _ _ (by rw [← hn]; omega) _ Fp.nan]
  · intro i hgt hltn
    rw [getD_map_lt _ _ _ (by rw [hsslen]; exact hltn) _ Fp.nan,
      hkey i (Or.inr ⟨hgt, hltn⟩)]
    unfold smoothInverse
    rw [getD_map_lt _ _ _ (by rw [← hn]; exact hltn) _ Fp.nan]

/-- Witness for C10: a 37-entry ratio whose reciprocal is infinite at
position 0 (ratio 0) and NaN at position 36, with the identity in place
of the Gaussian kernel. -/
theorem smooth_ratio_frame_witness :
    (∀ l : List ℚ, ((fun x : List ℚ => x) l).length = l.length)
    ∧ smoothUseful (Fp.fin 0 ::
        ((List.range 35).map (fun j : ℕ => Fp.fin ((j : ℚ) + 1)) ++ [Fp.nan])) ≠ []
    ∧ smoothExtra 10 + 2 ≤ (smoothInverseCut (Fp.fin 0 ::
        ((List.range 35).map (fun j : ℕ => Fp.fin ((j : ℚ) + 1)) ++ [Fp.nan]))).length
    ∧ ((smooth_ratio (fun x : List ℚ => x) 10 (Fp.fin 0 ::
          ((List.range 35).map (fun j : ℕ => Fp.fin ((j : ℚ) + 1)) ++ [Fp.nan]))).length
        = (Fp.fin 0 ::
          ((List.range 35).map (fun j : ℕ => Fp.fin ((j : ℚ) + 1)) ++ [Fp.nan])).length
      ∧ (∀ i < (smoothUseful (Fp.fin 0 ::
            ((List.range 35).map (fun j : ℕ => Fp.fin ((j : ℚ) + 1)) ++ [Fp.nan]))).headD 0,
          (smooth_ratio (fun x : List ℚ => x) 10 (Fp.fin 0 ::
            ((List.range 35).map (fun j : ℕ => Fp.fin ((j : ℚ) + 1)) ++ [Fp.nan]))).getD i Fp.nan
            = Fp.recip (Fp.recip ((Fp.fin 0 ::
              ((List.range 35).map (fun j : ℕ => Fp.fin ((j : ℚ) + 1)) ++ [Fp.nan])).getD i Fp.nan)))
      ∧ (∀ i, (smoothUseful (Fp.fin 0 ::
            ((List.range 35).map (fun j : ℕ => Fp.fin ((j : ℚ) + 1)) ++ [Fp.nan]))).getLastD 0 < i →
          i < (Fp.fin 0 ::
            ((List.range 35).map (fun j : ℕ => Fp.fin ((j : ℚ) + 1)) ++ [Fp.nan])).length →
          (smooth_ratio (fun x : List ℚ => x) 10 (Fp.fin 0 ::
            ((List.range 35).map (fun j : ℕ => Fp.fin ((j : ℚ) + 1)) ++ [Fp.nan]))).getD i Fp.nan
            = Fp.recip (Fp.recip ((Fp.fin 0 ::
              ((List.range 35).map (fun j : ℕ => Fp.fin ((j : ℚ) + 1)) ++ [Fp.nan])).getD i Fp.nan)))) :=
  ⟨fun _ => rfl,
   by with_unfolding_all decide,
   by with_unfolding_all decide,
   smooth_ratio_frame (fun x : List ℚ => x) 10
     (Fp.fin 0 :: ((List.range 35).map (fun j : ℕ => Fp.fin ((j : ℚ) + 1)) ++ [Fp.nan]))
     (fun _ => rfl)
     (by with_unfolding_all decide)
     (by with_unfolding_all decide)⟩

/- ----------------------------------------------------------------------
Spectral rebinner (`rebin_flux`, fluxcal2.py lines 647-717).

Embedding notes, keyed to the source:
* `originaldata = source_flux[1:-1]` — the first and last source samples
  are discarded before anything else (line 651).
* `originalbinlimits` (line 653) is just the list of midpoints of
  adjacent source wavelengths: the source grid gets no edges at its first
  and last samples.
* `binlimits` for the target grid (lines 666-669) is built imperatively:
  a NaN-filled array of length `len(targetwl)+1`, then `binlimits[0]`,
  `binlimits[1:-1]` (the midpoints) and `binlimits[-1]` are assigned.
* `origbinindex = np.interp(binlimits, originalbinlimits,
  arange(len(originalbinlimits)), left=nan, right=nan)` (lines 672-674)
  maps each target bin edge into fractional source-bin-index space;
  `none` stands for the NaN produced outside the source range.
* The accumulation loop (lines 682-712) iterates over all `N+1` edges.
  In this module `rebin_flux` is only ever called with the 1-D observed
  spectrum (line 608), and then the loop body raises an uncaught
  exception at every finite edge index: `origbinindex[i+1]` (line 691)
  is out of bounds at `i = N`, `fraccounted[indices] += weights`
  (line 710) goes out of range when an edge sits exactly on the topmost
  source bin limit, and otherwise `originalflux[:, indices]` (line 711)
  two-index-reads the 1-D `originalflux` and raises IndexError before
  any output is written.  `rebin_flux_checked` models these error exits
  (plus line 680's `np.max` of an empty `np.where` and the degenerate
  pre-loop exits) explicitly; `rebin_flux_never_returns` proves every
  call errors.  `binContrib` is the per-bin arithmetic one iteration
  *attempts* (with `originalflux[:, indices]` read as the evidently
  intended 1-D `originalflux[indices]`), and the pure `rebin_flux`
  below names the values lines 682-715 would then produce; these
  intended values are what the C9 invariance statement compares across
  its two runs (the error exits depend only on the two wavelength
  grids, which are identical across those runs), and what
  `rebin_flux_conserves` shows would conserve flux.  `maximumindex`
  (line 680) is dead code after the `intermediate = np.arange(0)` fix;
  only its empty-argument ValueError is modelled.
* `int()` on the non-negative `origbinindex` values is the floor, and
  `% 1` the fractional part.
* The final `rebinneddata / rebinnedweight` (line 715) is IEEE division:
  `0/0` (a target bin with no overlap) gives NaN.
---------------------------------------------------------------------- -/

/-- Midpoints of adjacent samples: `(wl[:-1] + wl[1:]) / 2`. -/
def midAdjacent (l : List ℚ) : List ℚ :=
  List.zipWith (fun a b => (a + b) / 2) l l.tail

/-- `np.diff`: differences of adjacent entries. -/
def adjacentDiffs (l : List ℚ) : List ℚ :=
  List.zipWith (fun a b => b - a) l l.tail

/-- `originalbinlimits = (originalwl[:-1] + originalwl[1:]) / 2.`
(line 653): the source grid's bin limits are the midpoints only. -/
def originalbinlimitsOf (source_wavelength : List ℚ) : List ℚ :=
  midAdjacent source_wavelength

/-- The target's `binlimits` array, built exactly as in lines 666-669:
NaN-filled, then edge and midpoint assignments. -/
def binlimitsOf (targetwl : List ℚ) : List Fp :=
  let b0 := List.replicate (targetwl.length + 1) Fp.nan
  let b1 := b0.set 0 (Fp.fin (targetwl.headD 0))
  let b2 := setSlice b1 1 ((midAdjacent targetwl).map Fp.fin)
  b2.set targetwl.length (Fp.fin (targetwl.getLastD 0))

/-- Scan for `np.interp` into index space: walk the knots, and inside
`[xp[j], xp[j+1])` return `j + (x - xp[j]) / (xp[j+1] - xp[j])`; at the
last knot (precondition `x ≤ last`) return its index. -/
def interpScan (x : ℚ) : List ℚ → ℕ → ℚ
  | a :: b :: rest, j =>
    if x < b then (j : ℚ) + (x - a) / (b - a) else interpScan x (b :: rest) (j + 1)
  | _, j => (j : ℚ)

/-- `np.interp(x, xp, np.arange(len(xp)), left=nan, right=nan)` for one
`x` and increasing `xp`; `none` is the NaN outside the range. -/
def npInterpIdx (x : ℚ) (xp : List ℚ) : Option ℚ :=
  match xp with
  | [] => none
  | a :: rest =>
    if x < a then none
    else if (a :: rest).getLastD 0 < x then none
    else some (interpScan x (a :: rest) 0)

/-- `origbinindex` (lines 672-674). -/
def origbinindexOf (targetwl originalwl : List ℚ) : List (Option ℚ) :=
  (binlimitsOf targetwl).map (fun e =>
    match e with
    | Fp.fin q => npInterpIdx q (originalbinlimitsOf originalwl)
    | _ => none)

/-- One iteration of the accumulation loop (lines 682-712), evaluated on
a per-source-bin array `flux` (either `originalflux` or
`originalweight`): the fractional low bin, the whole bins strictly
between, and — when the next edge maps into range — the fractional high
bin. -/
def binContrib (flux : List ℚ) : Option ℚ → Option ℚ → ℚ
  | none, _ => 0
  | some u, v =>
    let ja := (⌊u⌋).toNat
    let low := (1 - Int.fract u) * flux.getD ja 0
    match v with
    | none => low
    | some w =>
      let jb := (⌊w⌋).toNat
      low + ((List.range' (ja + 1) (jb - (ja + 1))).map (fun j => flux.getD j 0)).sum
        + Int.fract w * flux.getD jb 0

/-- `originaldata = source_flux[1:-1]` (line 651). -/
def rebinOriginalData (source_flux : List Fp) : List Fp :=
  (source_flux.drop 1).dropLast

/-- `originalflux = np.where(okaytouse, originaldata, 0.) *
np.diff(originalbinlimits)` (lines 654-659): per-source-bin total flux,
with non-finite samples zeroed. -/
def rebinOriginalFlux (source_wavelength : List ℚ) (source_flux : List Fp) :
    List ℚ :=
  List.zipWith (· * ·)
    ((rebinOriginalData source_flux).map (fun d => if d.isFinite then d.val else 0))
    (adjacentDiffs (originalbinlimitsOf source_wavelength))

/-- `originalweight = np.where(okaytouse, 1., 0.) *
np.diff(originalbinlimits)` (lines 656-660). -/
def rebinOriginalWeight (source_wavelength : List ℚ) (source_flux : List Fp) :
    List ℚ :=
  List.zipWith (· * ·)
    ((rebinOriginalData source_flux).map (fun d => if d.isFinite then (1 : ℚ) else 0))
    (adjacentDiffs (originalbinlimitsOf source_wavelength))

/-- `rebinneddata` after the accumulation loop (lines 682-711). -/
def rebinnedDataOf (target_wavelength source_wavelength : List ℚ)
    (source_flux : List Fp) : List ℚ :=
  (List.range target_wavelength.length).map (fun i =>
    binContrib (rebinOriginalFlux source_wavelength source_flux)
      ((origbinindexOf target_wavelength source_wavelength).getD i none)
      ((origbinindexOf target_wavelength source_wavelength).getD (i + 1) none))

/-- `rebinnedweight` after the accumulation loop (lines 682-712). -/
def rebinnedWeightOf (target_wavelength source_wavelength : List ℚ)
    (source_flux : List Fp) : List ℚ :=
  (List.range target_wavelength.length).map (fun i =>
    binContrib (rebinOriginalWeight source_wavelength source_flux)
      ((origbinindexOf target_wavelength source_wavelength).getD i none)
      ((origbinindexOf target_wavelength source_wavelength).getD (i + 1) none))

/-- `rebin_flux(target_wavelength, source_wavelength, source_flux)`
(lines 647-717): `rebinneddata / rebinnedweight`, in IEEE division. -/
def rebin_flux (target_wavelength source_wavelength : List ℚ)
    (source_flux : List Fp) : List Fp :=
  List.zipWith fpDivQ
    (rebinnedDataOf target_wavelength source_wavelength source_flux)
    (rebinnedWeightOf target_wavelength source_wavelength source_flux)

/-- The Python exception classes `rebin_flux` raises. -/
inductive PyError
  | indexError
  | valueError
deriving DecidableEq, Repr

/-- The body of one accumulation-loop iteration (lines 683-712) on the
value of `origbinindex[i]` (`none` is NaN: the body is skipped).  When
`origindex` is finite the source builds `indices = [lowlimit] ++
intermediate (++ [upplimit])` (lines 685-708) and then raises an uncaught
`IndexError` on every path: reading `origbinindex[i+1]` at line 691 when
`i + 1` is past the end of `origbinindex`; `fraccounted[indices] +=
weights` at line 710 when some index reaches `len(fraccounted) = nfrac`
(a target edge exactly on the topmost source bin limit); and otherwise
`originalflux[:, indices]` at line 711, which two-index-reads the 1-D
`originalflux` — `rebin_flux` is only called (line 608) with the 1-D
observed spectrum, so no contributing bin ever completes. -/
def rebinIterVal (nfrac : ℕ) (obi : List (Option ℚ)) (i : ℕ) :
    Option ℚ → Except PyError Unit
  | none => Except.ok ()
  | some u =>
    if i + 1 < obi.length then
      let lowlimit := (⌊u⌋).toNat
      let indices :=
        match obi.getD (i + 1) none with
        | some w =>
          lowlimit :: (List.range' (lowlimit + 1) ((⌊w⌋).toNat - (lowlimit + 1))
            ++ [(⌊w⌋).toNat])
        | none => [lowlimit]
      if indices.all (fun j => decide (j < nfrac)) then
        Except.error PyError.indexError
      else
        Except.error PyError.indexError
    else
      Except.error PyError.indexError

/-- One iteration of the accumulation loop at edge index `i`. -/
def rebinIter (nfrac : ℕ) (obi : List (Option ℚ)) (i : ℕ) :
    Except PyError Unit :=
  rebinIterVal nfrac obi i (obi.getD i none)

/-- The accumulation loop (lines 682-712): visit every entry of
`origbinindex` in order, stopping at the first uncaught exception. -/
def rebinAccumLoop (nfrac : ℕ) (obi : List (Option ℚ)) :
    Except PyError Unit :=
  (List.range obi.length).foldl
    (fun acc i => acc.bind (fun _ => rebinIter nfrac obi i)) (Except.ok ())

/-- `rebin_flux` with the source's error exits modelled (`Except.error`
is an uncaught Python exception; shapes are assumed consistent,
`len(source_flux) = len(source_wavelength)`, as in every call):
`targetwl[0]` at line 667 raises IndexError on an empty target grid;
`np.interp` at line 672 raises ValueError when `originalbinlimits` is
empty (fewer than two source samples); `np.max(np.where(...))` at
line 680 raises ValueError when no target edge maps into the source
bin-limit range; and otherwise the accumulation loop runs.  Only if the
loop completed would the values of the pure `rebin_flux` be returned. -/
def rebin_flux_checked (t s : List ℚ) (flux : List Fp) :
    Except PyError (List Fp) :=
  if t.length = 0 then Except.error PyError.indexError
  else if s.length < 2 then Except.error PyError.valueError
  else if (origbinindexOf t s).all (fun e => e.isNone) then
    Except.error PyError.valueError
  else
    match rebinAccumLoop (s.length - 2) (origbinindexOf t s) with
    | Except.error e => Except.error e
    | Except.ok _ => Except.ok (rebin_flux t s flux)

theorem midAdjacent_length (t : List ℚ) : (midAdjacent t).length = t.length - 1 := by
  simp [midAdjacent]

/-- `binlimitsOf` with its local bindings substituted. -/
theorem binlimitsOf_def (t : List ℚ) :
    binlimitsOf t = (setSlice ((List.replicate (t.length + 1) Fp.nan).set 0
      (Fp.fin (t.headD 0))) 1 ((midAdjacent t).map Fp.fin)).set t.length
      (Fp.fin (t.getLastD 0)) := rfl

/-- The imperative `binlimits` construction resolves to: first sample,
midpoints, last sample. -/
theorem binlimitsOf_eq (t : List ℚ) (ht : 2 ≤ t.length) :
    binlimitsOf t
      = Fp.fin (t.headD 0) :: ((midAdjacent t).map Fp.fin ++ [Fp.fin (t.getLastD 0)]) := by
  rw [binlimitsOf_def]
  set n := t.length with hn
  have hrep : List.replicate (n + 1) Fp.nan = Fp.nan :: List.replicate n Fp.nan :=
    List.replicate_succ _ _
  rw [hrep]
  have hset0 : (Fp.nan :: List.replicate n Fp.nan).set 0 (Fp.fin (t.headD 0))
      = Fp.fin (t.headD 0) :: List.replicate n Fp.nan := rfl
  rw [hset0]
  have hmlen : ((midAdjacent t).map Fp.fin).length = n - 1 := by
    rw [List.length_map, midAdjacent_length]
  unfold setSlice
  simp only [List.take_cons, List.take_zero, hmlen]
  have hdrop : (Fp.fin (t.headD 0) :: List.replicate n Fp.nan).drop (1 + (n - 1))
      = [Fp.nan] := by
    rw [show 1 + (n - 1) = (n - 1) + 1 by omega]
    rw [List.drop_succ_cons, List.drop_replicate]
    rw [show n - (n - 1) = 1 by omega]
    rfl
  rw [hdrop]
  rw [show List.take 1 (Fp.fin (t.headD 0) :: List.replicate n Fp.nan)
      = [Fp.fin (t.headD 0)] from rfl]
  rw [List.set_append_right _ _ (by simp [hmlen]; omega)]
  rw [show n - ([Fp.fin (t.headD 0)] ++ (midAdjacent t).map Fp.fin).length = 0 by
    simp [hmlen]; omega]
  simp

/-- C4 (amended): the target grid's bin edges are the first sample, the
midpoints of adjacent samples, and the last sample; but the source grid's
bin edges are the midpoints only — its first and last bin edges are the
first and last midpoints, not the first and last source samples. -/
theorem rebin_bin_edges (t s : List ℚ) (ht : 2 ≤ t.length) (a b : ℚ)
    (rest : List ℚ) (hs : s = a :: b :: rest) :
    binlimitsOf t
      = Fp.fin (t.headD 0) :: ((midAdjacent t).map Fp.fin ++ [Fp.fin (t.getLastD 0)])
    ∧ originalbinlimitsOf s = midAdjacent s
    ∧ (originalbinlimitsOf s).headD 0 = (a + b) / 2
    ∧ (originalbinlimitsOf s).length = s.length - 1 := by
  refine ⟨binlimitsOf_eq t ht, rfl, ?_, ?_⟩
  · subst hs
    rfl
  · unfold originalbinlimitsOf
    exact midAdjacent_length s

/-- Witness for C4's amended statement at a three-sample target and
source grid. -/
theorem rebin_bin_edges_witness :
    2 ≤ ([1, 2, 4] : List ℚ).length
    ∧ ([2, 4, 8] : List ℚ) = 2 :: 4 :: [8]
    ∧ (binlimitsOf [1, 2, 4]
        = Fp.fin (([1, 2, 4] : List ℚ).headD 0)
          :: ((midAdjacent [1, 2, 4]).map Fp.fin
              ++ [Fp.fin (([1, 2, 4] : List ℚ).getLastD 0)])
      ∧ originalbinlimitsOf [2, 4, 8] = midAdjacent [2, 4, 8]
      ∧ (originalbinlimitsOf [2, 4, 8]).headD 0 = (2 + 4) / 2
      ∧ (originalbinlimitsOf [2, 4, 8]).length = ([2, 4, 8] : List ℚ).length - 1) :=
  ⟨by decide, rfl, rebin_bin_edges [1, 2, 4] [2, 4, 8] (by decide) 2 4 [8] rfl⟩

/-- C4 counterexample: for the source grid `[2, 4, 8]` the constructed
source bin edges are `[3, 6]`: the first edge is the first midpoint 3,
not the first sample 2, and the last edge is 6, not the last sample 8. -/
theorem rebin_source_edges_counterexample :
    originalbinlimitsOf [2, 4, 8] = [3, 6]
    ∧ ((3 : ℚ) ≠ 2) ∧ ((6 : ℚ) ≠ 8) := by
  refine ⟨by with_unfolding_all rfl, by norm_num, by norm_num⟩

/-- Setting the last entry does not change `dropLast`. -/
theorem dropLast_set_last : ∀ (l : List Fp) (y : Fp),
    (l.set (l.length - 1) y).dropLast = l.dropLast
  | [], _ => rfl
  | [_], _ => rfl
  | a :: b :: t, y => by
    have hlen : (a :: b :: t).length - 1 = (b :: t).length - 1 + 1 := by
      simp
    rw [hlen, List.set_cons_succ]
    have h1 : (a :: (b :: t).set ((b :: t).length - 1) y).dropLast
        = a :: ((b :: t).set ((b :: t).length - 1) y).dropLast := by
      apply List.dropLast_cons_of_ne_nil
      intro hcon
      have := congrArg List.length hcon
      simp at this
    rw [h1, dropLast_set_last (b :: t) y]
    exact (List.dropLast_cons_of_ne_nil (by simp)).symm

/-- Replacing the first and last entries of a list with at least three
entries does not change its trimmed interior `l[1:-1]`. -/
theorem trim_set_ends (flux : List Fp) (x y : Fp) (h : 3 ≤ flux.length) :
    (((flux.set 0 x).set (flux.length - 1) y).drop 1).dropLast
      = (flux.drop 1).dropLast := by
  cases flux with
  | nil => simp at h
  | cons a tl =>
    have hset0 : (a :: tl).set 0 x = x :: tl := rfl
    rw [hset0]
    have hlen : (a :: tl).length - 1 = (tl.length - 1) + 1 := by
      simp only [List.length_cons]
      simp at h
      omega
    rw [hlen, List.set_cons_succ]
    rw [List.drop_one, List.drop_one]
    have htl : (x :: tl.set (tl.length - 1) y).tail = tl.set (tl.length - 1) y := rfl
    have htl2 : (a :: tl).tail = tl := rfl
    rw [htl, htl2, dropLast_set_last]

/-- C9: `rebin_flux` never uses the first or last sample of the source
flux array — replacing them by arbitrary values (finite or not) leaves
the result unchanged, because the code drops `source_flux[0]` and
`source_flux[-1]` before rebinning. -/
theorem rebin_flux_ignores_end_samples (t s : List ℚ) (flux : List Fp)
    (x y : Fp) (h : 3 ≤ flux.length) :
    rebin_flux t s ((flux.set 0 x).set (flux.length - 1) y)
      = rebin_flux t s flux := by
  have h0 : rebinOriginalData ((flux.set 0 x).set (flux.length - 1) y)
      = rebinOriginalData flux := trim_set_ends flux x y h
  unfold rebin_flux rebinnedDataOf rebinnedWeightOf rebinOriginalFlux
    rebinOriginalWeight
  rw [h0]

/-- Witness for C9 on a small concrete grid. -/
theorem rebin_flux_ignores_end_samples_witness :
    3 ≤ ([Fp.fin 5, Fp.fin 7, Fp.fin 9] : List Fp).length
    ∧ rebin_flux [1, 2] [0, 2, 4]
        ((([Fp.fin 5, Fp.fin 7, Fp.fin 9] : List Fp).set 0 Fp.nan).set
          (([Fp.fin 5, Fp.fin 7, Fp.fin 9] : List Fp).length - 1) (Fp.fin 100))
      = rebin_flux [1, 2] [0, 2, 4] [Fp.fin 5, Fp.fin 7, Fp.fin 9] :=
  ⟨by decide,
   rebin_flux_ignores_end_samples [1, 2] [0, 2, 4]
     [Fp.fin 5, Fp.fin 7, Fp.fin 9] Fp.nan (Fp.fin 100) (by decide)⟩

/-- The target bin edges described by the claim: first sample, midpoints,
last sample (proved equal to the program's `binlimitsOf` in
`binlimitsOf_eq_map`). -/
def targetEdges (t : List ℚ) : List ℚ :=
  t.headD 0 :: (midAdjacent t ++ [t.getLastD 0])

/-- Length of the wavelength overlap of the source bin `[slo, shi]` with
the interval `[p, q]`: the claim's "restricted to the wavelength range". -/
def intervalOverlap (slo shi p q : ℚ) : ℚ :=
  max 0 (min shi q - max slo p)

theorem targetEdges_length (t : List ℚ) (ht : 2 ≤ t.length) :
    (targetEdges t).length = t.length + 1 := by
  unfold targetEdges
  simp [midAdjacent_length]
  omega

theorem binlimitsOf_eq_map (t : List ℚ) (ht : 2 ≤ t.length) :
    binlimitsOf t = (targetEdges t).map Fp.fin := by
  rw [binlimitsOf_eq t ht]
  unfold targetEdges
  simp

/-- `getD` versus `getElem` for in-range indices. -/
theorem getD_eq_getElem {α : Type} (l : List α) (i : ℕ) (hi : i < l.length)
    (d : α) : l.getD i d = l[i] := by
  rw [List.getD_eq_getElem?_getD, List.getElem?_eq_getElem hi]
  rfl

/-- Strict monotonicity of `getD` along a strictly increasing list. -/
theorem chain'_getD_lt {l : List ℚ} (hc : l.Chain' (· < ·)) {i j : ℕ}
    (hij : i < j) (hj : j < l.length) : l.getD i 0 < l.getD j 0 := by
  have hp : l.Pairwise (· < ·) := List.chain'_iff_pairwise.mp hc
  have hi : i < l.length := lt_trans hij hj
  rw [getD_eq_getElem l i hi, getD_eq_getElem l j hj]
  exact List.pairwise_iff_getElem.mp hp i j hi hj hij

/-- Monotonicity of `getD` along a strictly increasing list. -/
theorem chain'_getD_le {l : List ℚ} (hc : l.Chain' (· < ·)) {i j : ℕ}
    (hij : i ≤ j) (hj : j < l.length) : l.getD i 0 ≤ l.getD j 0 := by
  rcases Nat.lt_or_ge i j with h | h
  · exact le_of_lt (chain'_getD_lt hc h hj)
  · have : i = j := le_antisymm hij h
    rw [this]

/-- `getD` through a `map` over `List.range`, for any codomain. -/
theorem getD_range_map {β : Type} (f : ℕ → β) {n i : ℕ} (hi : i < n) (d : β) :
    ((List.range n).map f).getD i d = f i := by
  rw [List.getD_eq_getElem?_getD, List.getElem?_map, List.getElem?_range hi]
  rfl

/-- `getD` through `zipWith`, for in-range indices (defaults are free). -/
theorem getD_zipWith {α β γ : Type} (f : α → β → γ) :
    ∀ (l1 : List α) (l2 : List β) (j : ℕ), j < l1.length → j < l2.length →
    ∀ (d : γ) (d1 : α) (d2 : β),
    (List.zipWith f l1 l2).getD j d = f (l1.getD j d1) (l2.getD j d2)
  | [], _, j, h1, _, _, _, _ => by simp at h1
  | _ :: _, [], j, _, h2, _, _, _ => by simp at h2
  | a :: l1, b :: l2, 0, _, _, d, d1, d2 => rfl
  | a :: l1, b :: l2, j + 1, h1, h2, d, d1, d2 => by
    simp only [List.zipWith_cons_cons, List.getD_cons_succ]
    exact getD_zipWith f l1 l2 j (by simpa using h1) (by simpa using h2) d d1 d2

/-- `getD` of the tail. -/
theorem getD_tail {α : Type} (l : List α) (j : ℕ) (d : α) :
    l.tail.getD j d = l.getD (j + 1) d := by
  cases l with
  | nil => simp
  | cons a t => rfl

/-- The midpoints-plus-last-sample tail of the target edge list is
strictly increasing above the first sample. -/
theorem chain'_mid_last : ∀ (r : List ℚ) (x y : ℚ),
    List.Chain' (· < ·) (x :: y :: r) →
    List.Chain' (· < ·)
      (x :: (midAdjacent (x :: y :: r) ++ [(x :: y :: r).getLastD 0]))
  | [], x, y, h => by
    have hxy : x < y := (List.chain'_cons.mp h).1
    have e1 : midAdjacent [x, y] = [(x + y) / 2] := by
      unfold midAdjacent
      rfl
    rw [e1]
    rw [show ([x, y] : List ℚ).getLastD 0 = y from rfl]
    rw [show ([(x + y) / 2] ++ [y] : List ℚ) = [(x + y) / 2, y] from rfl]
    rw [List.chain'_cons, List.chain'_cons]
    refine ⟨by linarith, by linarith, List.chain'_singleton y⟩
  | z :: r2, x, y, h => by
    have hxy : x < y := (List.chain'_cons.mp h).1
    have htail : List.Chain' (· < ·) (y :: z :: r2) := (List.chain'_cons.mp h).2
    have hyz : y < z := (List.chain'_cons.mp htail).1
    have ih := chain'_mid_last r2 y z htail
    have e1 : midAdjacent (x :: y :: z :: r2)
        = (x + y) / 2 :: midAdjacent (y :: z :: r2) := rfl
    have e2 : midAdjacent (y :: z :: r2)
        = (y + z) / 2 :: midAdjacent (z :: r2) := rfl
    have e3 : (x :: y :: z :: r2).getLastD 0 = (y :: z :: r2).getLastD 0 := rfl
    rw [e1, e3, List.cons_append, List.chain'_cons]
    refine ⟨by linarith, ?_⟩
    rw [e2, List.cons_append, List.chain'_cons]
    rw [e2, List.cons_append] at ih
    exact ⟨by linarith, ih.tail⟩

/-- The target edge list is strictly increasing when the target grid is. -/
theorem targetEdges_chain' (t : List ℚ) (ht : t.Chain' (· < ·))
    (hlen : 2 ≤ t.length) : (targetEdges t).Chain' (· < ·) := by
  unfold targetEdges
  cases t with
  | nil => simp at hlen
  | cons x rest =>
    cases rest with
    | nil => simp at hlen
    | cons y r2 =>
      rw [show (x :: y :: r2).headD 0 = x from rfl]
      exact chain'_mid_last r2 x y ht

theorem getLastD_eq_getD_q : ∀ (l : List ℚ) (d : ℚ),
    l.getLastD d = l.getD (l.length - 1) d
  | [], _ => rfl
  | [_], _ => rfl
  | a :: b :: t, d => by
    have h1 : (a :: b :: t).getLastD d = (b :: t).getLastD d := rfl
    have h2 : (a :: b :: t).length - 1 = ((b :: t).length - 1) + 1 := by
      simp
    rw [h1, h2, List.getD_cons_succ, getLastD_eq_getD_q (b :: t) d]

/-- `interpScan` returns `offset + j + frac` when `x` lies in segment `j`. -/
theorem interpScan_spec : ∀ (j : ℕ) (L : List ℚ) (off : ℕ) (x : ℚ),
    L.Chain' (· < ·) → j + 1 < L.length → L.getD j 0 ≤ x → x < L.getD (j + 1) 0 →
    interpScan x L off
      = ((off : ℚ) + (j : ℚ)) + (x - L.getD j 0) / (L.getD (j + 1) 0 - L.getD j 0)
  | 0, [], _, _, _, hlen, _, _ => by simp at hlen
  | 0, [_], _, _, _, hlen, _, _ => by simp at hlen
  | 0, a :: b :: rest, off, x, _, _, hge, hlt => by
    rw [List.getD_cons_succ, List.getD_cons_zero] at hlt ⊢
    rw [List.getD_cons_zero] at hge ⊢
    unfold interpScan
    rw [if_pos hlt]
    push_cast
    ring
  | j + 1, [], _, _, _, hlen, _, _ => by simp at hlen
  | j + 1, [_], _, _, _, hlen, _, _ => by simp at hlen
  | j + 1, a :: b :: rest, off, x, hc, hlen, hge, hlt => by
    have hble : b ≤ x := by
      have h1 : (a :: b :: rest).getD 1 0 ≤ (a :: b :: rest).getD (j + 1) 0 :=
        chain'_getD_le hc (by omega) (by simp at hlen ⊢; omega)
      rw [List.getD_cons_succ, List.getD_cons_zero] at h1
      exact le_trans h1 (by rw [List.getD_cons_succ] at hge; exact hge)
    unfold interpScan
    rw [if_neg (by exact not_lt.mpr hble)]
    have hrec := interpScan_spec j (b :: rest) (off + 1) x hc.tail
      (by simp at hlen ⊢; omega)
      (by rw [List.getD_cons_succ] at hge; exact hge)
      (by rw [List.getD_cons_succ] at hlt; exact hlt)
    have e1 : (a :: b :: rest).getD (j + 1) 0 = (b :: rest).getD j 0 := rfl
    have e2 : (a :: b :: rest).getD (j + 1 + 1) 0 = (b :: rest).getD (j + 1) 0 := rfl
    rw [e1, e2, hrec]
    push_cast
    ring

/-- `np.interp` into index space returns `j + frac` when `x` lies in
segment `j` of an increasing knot list. -/
theorem npInterpIdx_spec (L : List ℚ) (x : ℚ) (j : ℕ) (hc : L.Chain' (· < ·))
    (hj : j + 1 < L.length) (hge : L.getD j 0 ≤ x) (hlt : x < L.getD (j + 1) 0) :
    npInterpIdx x L
      = some ((j : ℚ) + (x - L.getD j 0) / (L.getD (j + 1) 0 - L.getD j 0)) := by
  cases L with
  | nil => simp at hj
  | cons a rest =>
    rw [show npInterpIdx x (a :: rest)
        = (if x < a then none
           else if (a :: rest).getLastD 0 < x then none
           else some (interpScan x (a :: rest) 0)) from rfl]
    rw [if_neg, if_neg]
    · rw [interpScan_spec j (a :: rest) 0 x hc hj hge hlt]
      push_cast
      ring_nf
    · rw [not_lt, getLastD_eq_getD_q]
      calc x ≤ (a :: rest).getD (j + 1) 0 := le_of_lt hlt
        _ ≤ (a :: rest).getD ((a :: rest).length - 1) 0 :=
          chain'_getD_le hc (by omega) (by omega)
    · rw [not_lt]
      calc a = (a :: rest).getD 0 0 := rfl
        _ ≤ (a :: rest).getD j 0 := chain'_getD_le hc (by omega) (by omega)
        _ ≤ x := hge

/-- Any point inside the knot range lies in some segment. -/
theorem exists_segment : ∀ (L : List ℚ), L.Chain' (· < ·) → ∀ x : ℚ,
    L.getD 0 0 ≤ x → x < L.getD (L.length - 1) 0 →
    ∃ j, j + 1 < L.length ∧ L.getD j 0 ≤ x ∧ x < L.getD (j + 1) 0
  | [], _, x, hge, hlt => by simp at hge hlt; linarith
  | [a], _, x, hge, hlt => by
    simp only [List.length_singleton] at hlt
    rw [show (1 : ℕ) - 1 = 0 from rfl] at hlt
    rw [List.getD_cons_zero] at hge hlt
    linarith
  | a :: b :: rest, hc, x, hge, hlt => by
    by_cases hxb : x < b
    · exact ⟨0, by simp, hge, hxb⟩
    · have hrec := exists_segment (b :: rest) hc.tail x
        (by rw [List.getD_cons_zero]; exact not_lt.mp hxb)
        (by
          have h2 : (a :: b :: rest).length - 1 = ((b :: rest).length - 1) + 1 := by
            simp
          rw [h2, List.getD_cons_succ] at hlt
          exact hlt)
      obtain ⟨j, hj1, hj2, hj3⟩ := hrec
      exact ⟨j + 1, by simp at hj1 ⊢; omega,
        by rw [List.getD_cons_succ]; exact hj2,
        by rw [List.getD_cons_succ]; exact hj3⟩

/-- Floor and fractional part of `j + r` for `0 ≤ r < 1`. -/
theorem floor_fract_nat_add (j : ℕ) (r : ℚ) (h0 : 0 ≤ r) (h1 : r < 1) :
    ⌊(j : ℚ) + r⌋ = j ∧ Int.fract ((j : ℚ) + r) = r := by
  have hcast : (j : ℚ) + r = ((j : ℤ) : ℚ) + r := by push_cast; ring
  constructor
  · rw [hcast, Int.floor_int_add]
    rw [Int.floor_eq_zero_iff.mpr (by constructor <;> simpa)]
    ring
  · rw [hcast, Int.fract_int_add]
    exact Int.fract_eq_self.mpr ⟨h0, h1⟩

theorem sum_map_add (l : List ℕ) (f g : ℕ → ℚ) :
    (l.map f).sum + (l.map g).sum = (l.map (fun j => f j + g j)).sum := by
  induction l with
  | nil => simp
  | cons a t ih =>
    simp only [List.map_cons, List.sum_cons]
    rw [← ih]
    ring

/-- Additivity of the overlap length in the second interval:
`[x,y] ∪ [y,z] = [x,z]`. -/
theorem intervalOverlap_add (slo shi x y z : ℚ) (hxy : x ≤ y) (hyz : y ≤ z) :
    intervalOverlap slo shi x y + intervalOverlap slo shi y z
      = intervalOverlap slo shi x z := by
  unfold intervalOverlap
  simp only [max_def, min_def]
  split_ifs <;> linarith

/-- A sum of zeros over any index list is zero. -/
theorem sum_map_zero (l : List ℕ) (f : ℕ → ℚ) (h : ∀ j ∈ l, f j = 0) :
    (l.map f).sum = 0 := by
  induction l with
  | nil => simp
  | cons a t ih =>
    simp only [List.map_cons, List.sum_cons]
    rw [h a (by simp), ih (fun j hj => h j (by simp [hj]))]
    ring

/-- Telescoping sum of adjacent differences over `range'`. -/
theorem sum_range'_adjacentDiffs (L : List ℚ) : ∀ (k l : ℕ), l + k < L.length →
    ((List.range' l k).map (fun j => (adjacentDiffs L).getD j 0)).sum
      = L.getD (l + k) 0 - L.getD l 0
  | 0, l, _ => by simp
  | k + 1, l, h => by
    rw [List.range'_succ]
    simp only [List.map_cons, List.sum_cons]
    have hrec := sum_range'_adjacentDiffs L k (l + 1) (by omega)
    rw [hrec]
    have hdiff : (adjacentDiffs L).getD l 0 = L.getD (l + 1) 0 - L.getD l 0 := by
      unfold adjacentDiffs
      rw [getD_zipWith _ L L.tail l (by omega) (by
          rw [List.length_tail]; omega) 0 0 0,
        getD_tail]
    rw [hdiff]
    rw [show l + 1 + k = l + (k + 1) by omega]
    ring

theorem getD_adjacentDiffs (L : List ℚ) (j : ℕ) (h : j + 1 < L.length) :
    (adjacentDiffs L).getD j 0 = L.getD (j + 1) 0 - L.getD j 0 := by
  unfold adjacentDiffs
  rw [getD_zipWith _ L L.tail j (by omega) (by rw [List.length_tail]; omega) 0 0 0,
    getD_tail]

/-- `binContrib` on two in-range fractional indices, written out. -/
theorem binContrib_some_some (flux : List ℚ) (u w : ℚ) :
    binContrib flux (some u) (some w)
      = (1 - Int.fract u) * flux.getD (⌊u⌋).toNat 0
        + ((List.range' ((⌊u⌋).toNat + 1) ((⌊w⌋).toNat - ((⌊u⌋).toNat + 1))).map
            (fun j => flux.getD j 0)).sum
        + Int.fract w * flux.getD (⌊w⌋).toNat 0 := rfl

theorem range'_split (s n p : ℕ) (h1 : s ≤ p) (h2 : p < s + n) :
    List.range' s n
      = List.range' s (p - s) ++ [p] ++ List.range' (p + 1) (s + n - (p + 1)) := by
  have h3 := List.range'_append s (p - s) (s + n - p) 1
  rw [one_mul] at h3
  rw [show s + (p - s) = p by omega] at h3
  have h4 : List.range' p (s + n - p) = p :: List.range' (p + 1) (s + n - (p + 1)) := by
    rw [show s + n - p = (s + n - (p + 1)) + 1 by omega]
    rw [List.range'_succ]
  rw [h4] at h3
  rw [show s + n - p + (p - s) = n by omega] at h3
  rw [← h3]
  simp

theorem range_split_one (M p : ℕ) (h : p < M) :
    List.range M = List.range' 0 p ++ [p] ++ List.range' (p + 1) (M - (p + 1)) := by
  rw [List.range_eq_range' M]
  have := range'_split 0 M p (by omega) (by omega)
  simpa using this

theorem range_split_two (M p q : ℕ) (hpq : p < q) (hq : q < M) :
    List.range M = List.range' 0 p ++ [p] ++ (List.range' (p + 1) (q - (p + 1))
      ++ [q] ++ List.range' (q + 1) (M - (q + 1))) := by
  rw [range_split_one M p (by omega)]
  rw [range'_split (p + 1) (M - (p + 1)) q (by omega) (by omega)]
  rw [show (p + 1) + (M - (p + 1)) - (q + 1) = M - (q + 1) by omega]

/-- The per-target-bin conservation identity: for a target bin `[x, y]`
strictly inside the source bin range, the accumulated weight is positive
and (flux density) × (bin width) equals the overlap-weighted sum of the
source densities. -/
theorem binContrib_covered (obl F W : List ℚ) (dens : ℕ → ℚ) (x y : ℚ)
    (hobl : obl.Chain' (· < ·))
    (hF : ∀ j, j + 1 < obl.length →
      F.getD j 0 = dens j * (obl.getD (j + 1) 0 - obl.getD j 0))
    (hW : ∀ j, j + 1 < obl.length →
      W.getD j 0 = obl.getD (j + 1) 0 - obl.getD j 0)
    (hxy : x < y) (hx0 : obl.getD 0 0 ≤ x)
    (hytop : y < obl.getD (obl.length - 1) 0) :
    0 < binContrib W (npInterpIdx x obl) (npInterpIdx y obl)
    ∧ binContrib F (npInterpIdx x obl) (npInterpIdx y obl)
        / binContrib W (npInterpIdx x obl) (npInterpIdx y obl) * (y - x)
      = ((List.range (obl.length - 1)).map (fun j =>
          dens j * intervalOverlap (obl.getD j 0) (obl.getD (j + 1) 0) x y)).sum := by
  obtain ⟨ja, hja1, hja2, hja3⟩ := exists_segment obl hobl x hx0 (lt_trans hxy hytop)
  obtain ⟨jb, hjb1, hjb2, hjb3⟩ := exists_segment obl hobl y (le_trans hx0 hxy.le) hytop
  have hdja : 0 < obl.getD (ja + 1) 0 - obl.getD ja 0 :=
    sub_pos.mpr (chain'_getD_lt hobl (by omega) hja1)
  have hdjb : 0 < obl.getD (jb + 1) 0 - obl.getD jb 0 :=
    sub_pos.mpr (chain'_getD_lt hobl (by omega) hjb1)
  set rx := (x - obl.getD ja 0) / (obl.getD (ja + 1) 0 - obl.getD ja 0) with hrx
  set ry := (y - obl.getD jb 0) / (obl.getD (jb + 1) 0 - obl.getD jb 0) with hry
  have hrx0 : 0 ≤ rx := div_nonneg (by linarith) hdja.le
  have hrx1 : rx < 1 := (div_lt_one hdja).mpr (by linarith)
  have hry0 : 0 ≤ ry := div_nonneg (by linarith) hdjb.le
  have hry1 : ry < 1 := (div_lt_one hdjb).mpr (by linarith)
  have hxint : npInterpIdx x obl = some ((ja : ℚ) + rx) := by
    rw [hrx]
    exact npInterpIdx_spec obl x ja hobl hja1 hja2 hja3
  have hyint : npInterpIdx y obl = some ((jb : ℚ) + ry) := by
    rw [hry]
    exact npInterpIdx_spec obl y jb hobl hjb1 hjb2 hjb3
  have hfu := floor_fract_nat_add ja rx hrx0 hrx1
  have hfv := floor_fract_nat_add jb ry hry0 hry1
  rw [hxint, hyint, binContrib_some_some, binContrib_some_some,
    hfu.1, hfu.2, hfv.1, hfv.2, Int.toNat_natCast, Int.toNat_natCast]
  have hrxD : (1 - rx) * (obl.getD (ja + 1) 0 - obl.getD ja 0)
      = obl.getD (ja + 1) 0 - x := by
    rw [hrx, one_sub_div (ne_of_gt hdja), div_mul_cancel₀ _ (ne_of_gt hdja)]
    ring
  have hryD : ry * (obl.getD (jb + 1) 0 - obl.getD jb 0) = y - obl.getD jb 0 := by
    rw [hry, div_mul_cancel₀ _ (ne_of_gt hdjb)]
  have hjajb : ja ≤ jb := by
    by_contra hcon
    push_neg at hcon
    have hle : obl.getD (jb + 1) 0 ≤ obl.getD ja 0 :=
      chain'_getD_le hobl (by omega) (by omega)
    linarith
  have hovzero_left : ∀ j, j + 1 ≤ ja →
      intervalOverlap (obl.getD j 0) (obl.getD (j + 1) 0) x y = 0 := by
    intro j hj
    unfold intervalOverlap
    have h1 : obl.getD (j + 1) 0 ≤ obl.getD ja 0 :=
      chain'_getD_le hobl (by omega) (by omega)
    have h2 : min (obl.getD (j + 1) 0) y ≤ obl.getD (j + 1) 0 := min_le_left _ _
    have h3 : x ≤ max (obl.getD j 0) x := le_max_right _ _
    exact max_eq_left (by linarith)
  have hovzero_right : ∀ j, jb + 1 ≤ j → j + 1 < obl.length →
      intervalOverlap (obl.getD j 0) (obl.getD (j + 1) 0) x y = 0 := by
    intro j hj hjlen
    unfold intervalOverlap
    have h1 : obl.getD (jb + 1) 0 ≤ obl.getD j 0 :=
      chain'_getD_le hobl (by omega) (by omega)
    have h2 : min (obl.getD (j + 1) 0) y ≤ y := min_le_right _ _
    have h3 : obl.getD j 0 ≤ max (obl.getD j 0) x := le_max_left _ _
    exact max_eq_left (by linarith)
  rcases Nat.eq_or_lt_of_le hjajb with heq | hlt
  · -- the target bin lies inside the single source bin ja
    subst heq
    rw [show ja - (ja + 1) = 0 by omega]
    rw [show List.range' (ja + 1) 0 = [] from rfl]
    simp only [List.map_nil, List.sum_nil]
    rw [hF ja hja1, hW ja hja1]
    have hovja : intervalOverlap (obl.getD ja 0) (obl.getD (ja + 1) 0) x y
        = y - x := by
      unfold intervalOverlap
      rw [min_eq_right (show y ≤ obl.getD (ja + 1) 0 from hjb3.le),
        max_eq_right (show obl.getD ja 0 ≤ x from hja2)]
      exact max_eq_right (by linarith)
    have hWpos : 0 < (1 - rx) * (obl.getD (ja + 1) 0 - obl.getD ja 0) + 0
        + ry * (obl.getD (ja + 1) 0 - obl.getD ja 0) := by
      nlinarith
    refine ⟨hWpos, ?_⟩
    rw [range_split_one (obl.length - 1) ja (by omega)]
    simp only [List.map_append, List.sum_append, List.map_cons, List.map_nil,
      List.sum_cons, List.sum_nil]
    rw [sum_map_zero (List.range' 0 ja)
      (fun j => dens j * intervalOverlap (obl.getD j 0) (obl.getD (j + 1) 0) x y)
      (fun j hj => by
        rw [List.mem_range'_1] at hj
        show dens j * intervalOverlap (obl.getD j 0) (obl.getD (j + 1) 0) x y = 0
        rw [hovzero_left j (by omega), mul_zero])]
    rw [sum_map_zero (List.range' (ja + 1) (obl.length - 1 - (ja + 1)))
      (fun j => dens j * intervalOverlap (obl.getD j 0) (obl.getD (j + 1) 0) x y)
      (fun j hj => by
        rw [List.mem_range'_1] at hj
        show dens j * intervalOverlap (obl.getD j 0) (obl.getD (j + 1) 0) x y = 0
        rw [hovzero_right j (by omega) (by omega), mul_zero])]
    rw [hovja]
    have hsum : (1 - rx) * (dens ja * (obl.getD (ja + 1) 0 - obl.getD ja 0)) + 0
        + ry * (dens ja * (obl.getD (ja + 1) 0 - obl.getD ja 0))
        = dens ja * ((1 - rx) * (obl.getD (ja + 1) 0 - obl.getD ja 0) + 0
          + ry * (obl.getD (ja + 1) 0 - obl.getD ja 0)) := by ring
    rw [hsum, mul_div_assoc, div_self (ne_of_gt hWpos), mul_one]
    ring
  · -- the target bin spans the source bins ja .. jb
    have hmle : ∀ j ∈ List.range' (ja + 1) (jb - (ja + 1)), j + 1 < obl.length := by
      intro j hj
      rw [List.mem_range'_1] at hj
      omega
    have hmidF : ((List.range' (ja + 1) (jb - (ja + 1))).map
        (fun j => F.getD j 0)).sum
        = ((List.range' (ja + 1) (jb - (ja + 1))).map
            (fun j => dens j * intervalOverlap (obl.getD j 0) (obl.getD (j + 1) 0)
              x y)).sum := by
      apply congrArg
      apply List.map_congr_left
      intro j hj
      have hjlen := hmle j hj
      rw [List.mem_range'_1] at hj
      rw [hF j hjlen]
      have hov : intervalOverlap (obl.getD j 0) (obl.getD (j + 1) 0) x y
          = obl.getD (j + 1) 0 - obl.getD j 0 := by
        unfold intervalOverlap
        have hx' : x < obl.getD (ja + 1) 0 := hja3
        have h1 : obl.getD (ja + 1) 0 ≤ obl.getD j 0 :=
          chain'_getD_le hobl (by omega) (by omega)
        have h2 : obl.getD (j + 1) 0 ≤ obl.getD jb 0 :=
          chain'_getD_le hobl (by omega) (by omega)
        have h3 : obl.getD j 0 < obl.getD (j + 1) 0 :=
          chain'_getD_lt hobl (by omega) (by omega)
        rw [min_eq_left (show obl.getD (j + 1) 0 ≤ y by linarith),
          max_eq_left (show x ≤ obl.getD j 0 by linarith)]
        exact max_eq_right (by linarith)
      rw [hov]
    have hmidW : ((List.range' (ja + 1) (jb - (ja + 1))).map
        (fun j => W.getD j 0)).sum
        = obl.getD jb 0 - obl.getD (ja + 1) 0 := by
      have hconv : ((List.range' (ja + 1) (jb - (ja + 1))).map
          (fun j => W.getD j 0)).sum
          = ((List.range' (ja + 1) (jb - (ja + 1))).map
              (fun j => (adjacentDiffs obl).getD j 0)).sum := by
        apply congrArg
        apply List.map_congr_left
        intro j hj
        rw [hW j (hmle j hj), getD_adjacentDiffs obl j (hmle j hj)]
      rw [hconv, sum_range'_adjacentDiffs obl (jb - (ja + 1)) (ja + 1) (by omega)]
      rw [show ja + 1 + (jb - (ja + 1)) = jb by omega]
    have hWval : (1 - rx) * W.getD ja 0
        + ((List.range' (ja + 1) (jb - (ja + 1))).map (fun j => W.getD j 0)).sum
        + ry * W.getD jb 0 = y - x := by
      rw [hW ja hja1, hW jb hjb1, hmidW, hrxD, hryD]
      ring
    have hWpos : 0 < (1 - rx) * W.getD ja 0
        + ((List.range' (ja + 1) (jb - (ja + 1))).map (fun j => W.getD j 0)).sum
        + ry * W.getD jb 0 := by
      rw [hWval]
      linarith
    refine ⟨hWpos, ?_⟩
    rw [hWval, div_mul_cancel₀ _ (by linarith : y - x ≠ 0)]
    rw [range_split_two (obl.length - 1) ja jb hlt (by omega)]
    simp only [List.map_append, List.sum_append, List.map_cons, List.map_nil,
      List.sum_cons, List.sum_nil]
    rw [sum_map_zero (List.range' 0 ja)
      (fun j => dens j * intervalOverlap (obl.getD j 0) (obl.getD (j + 1) 0) x y)
      (fun j hj => by
        rw [List.mem_range'_1] at hj
        show dens j * intervalOverlap (obl.getD j 0) (obl.getD (j + 1) 0) x y = 0
        rw [hovzero_left j (by omega), mul_zero])]
    rw [sum_map_zero (List.range' (jb + 1) (obl.length - 1 - (jb + 1)))
      (fun j => dens j * intervalOverlap (obl.getD j 0) (obl.getD (j + 1) 0) x y)
      (fun j hj => by
        rw [List.mem_range'_1] at hj
        show dens j * intervalOverlap (obl.getD j 0) (obl.getD (j + 1) 0) x y = 0
        rw [hovzero_right j (by omega) (by omega), mul_zero])]
    have hovja : intervalOverlap (obl.getD ja 0) (obl.getD (ja + 1) 0) x y
        = obl.getD (ja + 1) 0 - x := by
      unfold intervalOverlap
      have h2 : obl.getD (ja + 1) 0 ≤ obl.getD jb 0 :=
        chain'_getD_le hobl (by omega) (by omega)
      rw [min_eq_left (show obl.getD (ja + 1) 0 ≤ y by linarith),
        max_eq_right (show obl.getD ja 0 ≤ x from hja2)]
      exact max_eq_right (by linarith)
    have hovjb : intervalOverlap (obl.getD jb 0) (obl.getD (jb + 1) 0) x y
        = y - obl.getD jb 0 := by
      unfold intervalOverlap
      have h1 : obl.getD (ja + 1) 0 ≤ obl.getD jb 0 :=
        chain'_getD_le hobl (by omega) (by omega)
      rw [min_eq_right (show y ≤ obl.getD (jb + 1) 0 from hjb3.le),
        max_eq_left (show x ≤ obl.getD jb 0 by linarith)]
      exact max_eq_right (by linarith)
    rw [hovja, hovjb, hmidF, hF ja hja1, hF jb hjb1]
    rw [show (1 - rx) * (dens ja * (obl.getD (ja + 1) 0 - obl.getD ja 0))
        = dens ja * ((1 - rx) * (obl.getD (ja + 1) 0 - obl.getD ja 0)) by ring]
    rw [show ry * (dens jb * (obl.getD (jb + 1) 0 - obl.getD jb 0))
        = dens jb * (ry * (obl.getD (jb + 1) 0 - obl.getD jb 0)) by ring]
    rw [hrxD, hryD]
    ring

/-- Midpoints of adjacent entries of a strictly increasing list are
strictly increasing. -/
theorem midAdjacent_chain' : ∀ (s : List ℚ), s.Chain' (· < ·) →
    (midAdjacent s).Chain' (· < ·)
  | [], _ => by simp [midAdjacent]
  | [_], _ => by simp [midAdjacent]
  | [a, b], _ => by
    rw [show midAdjacent [a, b] = [(a + b) / 2] from rfl]
    exact List.chain'_singleton _
  | a :: b :: c :: r, h => by
    have hab : a < b := (List.chain'_cons.mp h).1
    have htl : (b :: c :: r).Chain' (· < ·) := (List.chain'_cons.mp h).2
    have hbc : b < c := (List.chain'_cons.mp htl).1
    have ih := midAdjacent_chain' (b :: c :: r) htl
    have e1 : midAdjacent (a :: b :: c :: r)
        = (a + b) / 2 :: midAdjacent (b :: c :: r) := rfl
    have e2 : midAdjacent (b :: c :: r) = (b + c) / 2 :: midAdjacent (c :: r) := rfl
    rw [e1, e2, List.chain'_cons]
    rw [e2] at ih
    exact ⟨by linarith, ih⟩

/-- The overlap of any interval with an empty interval is zero. -/
theorem intervalOverlap_self (slo shi p : ℚ) : intervalOverlap slo shi p p = 0 := by
  unfold intervalOverlap
  have h1 : min shi p ≤ p := min_le_right _ _
  have h2 : p ≤ max slo p := le_max_right _ _
  exact max_eq_left (by linarith)

/-- `originaldata` read at an in-range bin index is the source flux shifted
by one (the discarded first sample). -/
theorem rebinOriginalData_getD (s : List ℚ) (flux : List Fp)
    (hflen : flux.length = s.length) (j : ℕ) (hj : j < s.length - 2) :
    (rebinOriginalData flux).getD j Fp.nan = flux.getD (j + 1) Fp.nan := by
  unfold rebinOriginalData
  rw [List.dropLast_eq_take]
  rw [getD_take_lt _ _ _ _ (by rw [List.length_drop, hflen]; omega)]
  rw [getD_drop_add]
  congr 1
  omega

/-- `originalflux` at bin `j` (all-finite source flux): source density
times source bin width. -/
theorem rebinOriginalFlux_getD (s : List ℚ) (flux : List Fp)
    (hflen : flux.length = s.length)
    (hfin : ∀ f ∈ flux, f.isFinite = true) (j : ℕ)
    (hj : j + 1 < (originalbinlimitsOf s).length) :
    (rebinOriginalFlux s flux).getD j 0
      = Fp.val (flux.getD (j + 1) Fp.nan)
        * ((originalbinlimitsOf s).getD (j + 1) 0
            - (originalbinlimitsOf s).getD j 0) := by
  have hoblen : (originalbinlimitsOf s).length = s.length - 1 := midAdjacent_length s
  have hjj : j < s.length - 2 := by omega
  unfold rebinOriginalFlux
  rw [getD_zipWith (· * ·) _ _ j
    (by
      rw [List.length_map]
      unfold rebinOriginalData
      rw [List.length_dropLast, List.length_drop, hflen]
      omega)
    (by
      unfold adjacentDiffs
      rw [List.length_zipWith, List.length_tail]
      omega) 0 0 0]
  rw [getD_map_lt _ _ j
    (by
      unfold rebinOriginalData
      rw [List.length_dropLast, List.length_drop, hflen]
      omega) 0 Fp.nan]
  rw [rebinOriginalData_getD s flux hflen j hjj]
  rw [if_pos (hfin _ (by
    rw [getD_eq_getElem flux (j + 1) (by omega)]
    exact List.getElem_mem _))]
  rw [getD_adjacentDiffs _ j hj]

/-- `originalweight` at bin `j` (all-finite source flux): the source bin
width. -/
theorem rebinOriginalWeight_getD (s : List ℚ) (flux : List Fp)
    (hflen : flux.length = s.length)
    (hfin : ∀ f ∈ flux, f.isFinite = true) (j : ℕ)
    (hj : j + 1 < (originalbinlimitsOf s).length) :
    (rebinOriginalWeight s flux).getD j 0
      = (originalbinlimitsOf s).getD (j + 1) 0 - (originalbinlimitsOf s).getD j 0 := by
  have hoblen : (originalbinlimitsOf s).length = s.length - 1 := midAdjacent_length s
  have hjj : j < s.length - 2 := by omega
  unfold rebinOriginalWeight
  rw [getD_zipWith (· * ·) _ _ j
    (by
      rw [List.length_map]
      unfold rebinOriginalData
      rw [List.length_dropLast, List.length_drop, hflen]
      omega)
    (by
      unfold adjacentDiffs
      rw [List.length_zipWith, List.length_tail]
      omega) 0 0 0]
  rw [getD_map_lt _ _ j
    (by
      unfold rebinOriginalData
      rw [List.length_dropLast, List.length_drop, hflen]
      omega) 0 Fp.nan]
  rw [rebinOriginalData_getD s flux hflen j hjj]
  rw [if_pos (hfin _ (by
    rw [getD_eq_getElem flux (j + 1) (by omega)]
    exact List.getElem_mem _))]
  rw [getD_adjacentDiffs _ j hj, one_mul]

/-- The rebinned output at target bin `i`, written as the IEEE quotient
of the two `binContrib` accumulations. -/
theorem rebin_flux_getD (t s : List ℚ) (flux : List Fp) (i : ℕ)
    (hi : i < t.length) :
    (rebin_flux t s flux).getD i Fp.nan
      = fpDivQ
          (binContrib (rebinOriginalFlux s flux)
            ((origbinindexOf t s).getD i none)
            ((origbinindexOf t s).getD (i + 1) none))
          (binContrib (rebinOriginalWeight s flux)
            ((origbinindexOf t s).getD i none)
            ((origbinindexOf t s).getD (i + 1) none)) := by
  unfold rebin_flux rebinnedDataOf rebinnedWeightOf
  rw [getD_zipWith fpDivQ _ _ i (by simp [hi]) (by simp [hi]) Fp.nan 0 0]
  rw [getD_range_map _ hi, getD_range_map _ hi]

/-- `origbinindex` at an in-range edge index: `np.interp` of that target
edge into the source edge index space. -/
theorem origbinindexOf_getD (t s : List ℚ) (ht2 : 2 ≤ t.length) (i : ℕ)
    (hi : i < t.length + 1) :
    (origbinindexOf t s).getD i none
      = npInterpIdx ((targetEdges t).getD i 0) (originalbinlimitsOf s) := by
  unfold origbinindexOf
  rw [binlimitsOf_eq_map t ht2, List.map_map]
  rw [getD_map_lt _ _ i (by rw [targetEdges_length t ht2]; exact hi) none 0]
  rfl

/-- The *intended* rebinning arithmetic conserves total flux: for every
strictly increasing target and source wavelength grid and all-finite
source flux, and every block of `k` consecutive target bins whose edges
lie inside the source bin-edge range, the sum over those target bins of
the intended flux density times the target bin width equals the sum over
source bins of the source flux density times the width of the source bin
restricted to the wavelength range spanned by the block — exactly, in ℚ.
These are the values the accumulation loop attempts to compute; the
program itself raises before producing them (`rebin_flux_never_returns`). -/
theorem rebin_flux_conserves (t s : List ℚ) (flux : List Fp) (a : ℕ)
    (ht : t.Chain' (· < ·)) (ht2 : 2 ≤ t.length)
    (hs : s.Chain' (· < ·)) (hs3 : 3 ≤ s.length)
    (hflen : flux.length = s.length)
    (hfin : ∀ f ∈ flux, f.isFinite = true)
    (hlow : (originalbinlimitsOf s).getD 0 0 ≤ (targetEdges t).getD a 0) :
    ∀ k, a + k ≤ t.length →
      (targetEdges t).getD (a + k) 0
        < (originalbinlimitsOf s).getD ((originalbinlimitsOf s).length - 1) 0 →
      ((List.range' a k).map (fun i =>
          Fp.val ((rebin_flux t s flux).getD i Fp.nan)
            * ((targetEdges t).getD (i + 1) 0 - (targetEdges t).getD i 0))).sum
        = ((List.range (s.length - 2)).map (fun j =>
            Fp.val (flux.getD (j + 1) Fp.nan)
              * intervalOverlap ((originalbinlimitsOf s).getD j 0)
                  ((originalbinlimitsOf s).getD (j + 1) 0)
                  ((targetEdges t).getD a 0)
                  ((targetEdges t).getD (a + k) 0))).sum
  | 0, _, _ => by
    rw [show List.range' a 0 = [] from rfl]
    simp only [List.map_nil, List.sum_nil, Nat.add_zero]
    exact (sum_map_zero (List.range (s.length - 2)) _ (fun j _ => by
      show Fp.val (flux.getD (j + 1) Fp.nan)
          * intervalOverlap ((originalbinlimitsOf s).getD j 0)
            ((originalbinlimitsOf s).getD (j + 1) 0)
            ((targetEdges t).getD a 0) ((targetEdges t).getD a 0) = 0
      rw [intervalOverlap_self, mul_zero])).symm
  | k + 1, hak, hhigh => by
    have heL_chain : (targetEdges t).Chain' (· < ·) := targetEdges_chain' t ht ht2
    have heLlen : (targetEdges t).length = t.length + 1 := targetEdges_length t ht2
    have hoblen : (originalbinlimitsOf s).length = s.length - 1 := midAdjacent_length s
    have hobl_chain : (originalbinlimitsOf s).Chain' (· < ·) := midAdjacent_chain' s hs
    rw [show a + (k + 1) = a + k + 1 by omega] at hhigh ⊢
    have hstep : (targetEdges t).getD (a + k) 0 < (targetEdges t).getD (a + k + 1) 0 := by
      apply chain'_getD_lt heL_chain (by omega)
      rw [heLlen]
      omega
    have ih := rebin_flux_conserves t s flux a ht ht2 hs hs3 hflen hfin hlow k
      (by omega) (lt_trans hstep hhigh)
    have hobi1 : (origbinindexOf t s).getD (a + k) none
        = npInterpIdx ((targetEdges t).getD (a + k) 0) (originalbinlimitsOf s) :=
      origbinindexOf_getD t s ht2 (a + k) (by omega)
    have hobi2 : (origbinindexOf t s).getD (a + k + 1) none
        = npInterpIdx ((targetEdges t).getD (a + k + 1) 0) (originalbinlimitsOf s) :=
      origbinindexOf_getD t s ht2 (a + k + 1) (by omega)
    have hcov := binContrib_covered (originalbinlimitsOf s)
      (rebinOriginalFlux s flux) (rebinOriginalWeight s flux)
      (fun j => Fp.val (flux.getD (j + 1) Fp.nan))
      ((targetEdges t).getD (a + k) 0) ((targetEdges t).getD (a + k + 1) 0)
      hobl_chain
      (fun j hj => rebinOriginalFlux_getD s flux hflen hfin j hj)
      (fun j hj => rebinOriginalWeight_getD s flux hflen hfin j hj)
      hstep
      (le_trans hlow (chain'_getD_le heL_chain (by omega) (by rw [heLlen]; omega)))
      hhigh
    obtain ⟨hWpos, hbin⟩ := hcov
    set A := binContrib (rebinOriginalFlux s flux)
      (npInterpIdx ((targetEdges t).getD (a + k) 0) (originalbinlimitsOf s))
      (npInterpIdx ((targetEdges t).getD (a + k + 1) 0) (originalbinlimitsOf s)) with hA
    set Wc := binContrib (rebinOriginalWeight s flux)
      (npInterpIdx ((targetEdges t).getD (a + k) 0) (originalbinlimitsOf s))
      (npInterpIdx ((targetEdges t).getD (a + k + 1) 0) (originalbinlimitsOf s)) with hWc
    have hout : (rebin_flux t s flux).getD (a + k) Fp.nan = Fp.fin (A / Wc) := by
      rw [rebin_flux_getD t s flux (a + k) (by omega), hobi1, hobi2]
      show fpDivQ A Wc = Fp.fin (A / Wc)
      unfold fpDivQ
      rw [if_neg (ne_of_gt hWpos)]
    have hsplit : List.range' a (k + 1) = List.range' a k ++ [a + k] := by
      have h3 := List.range'_append a k 1 1
      rw [one_mul] at h3
      rw [show List.range' (a + k) 1 = [a + k] from rfl] at h3
      rw [show (1 : ℕ) + k = k + 1 by omega] at h3
      exact h3.symm
    rw [hsplit]
    simp only [List.map_append, List.sum_append, List.map_cons, List.map_nil,
      List.sum_cons, List.sum_nil]
    rw [ih, hout]
    rw [show Fp.val (Fp.fin (A / Wc)) = A / Wc from rfl]
    rw [hbin]
    rw [show (originalbinlimitsOf s).length - 1 = s.length - 2 by omega]
    rw [add_zero, sum_map_add]
    apply congrArg
    apply List.map_congr_left
    intro j _
    show Fp.val (flux.getD (j + 1) Fp.nan)
          * intervalOverlap ((originalbinlimitsOf s).getD j 0)
            ((originalbinlimitsOf s).getD (j + 1) 0)
            ((targetEdges t).getD a 0) ((targetEdges t).getD (a + k) 0)
        + Fp.val (flux.getD (j + 1) Fp.nan)
          * intervalOverlap ((originalbinlimitsOf s).getD j 0)
            ((originalbinlimitsOf s).getD (j + 1) 0)
            ((targetEdges t).getD (a + k) 0) ((targetEdges t).getD (a + k + 1) 0)
      = Fp.val (flux.getD (j + 1) Fp.nan)
          * intervalOverlap ((originalbinlimitsOf s).getD j 0)
            ((originalbinlimitsOf s).getD (j + 1) 0)
            ((targetEdges t).getD a 0) ((targetEdges t).getD (a + k + 1) 0)
    rw [← mul_add, intervalOverlap_add _ _ _ _ _
      (chain'_getD_le heL_chain (by omega) (by rw [heLlen]; omega)) hstep.le]

/-- The conservation identity of the intended arithmetic at a concrete
target grid `[2, 4, 6]` (edges `[2, 3, 5, 6]`), source grid
`[0, 2, 4, 6, 8, 10]` (bin edges `[1, 3, 5, 7, 9]`), finite source flux,
and the block of the first two target bins. -/
theorem rebin_flux_conserves_witness :
    ([2, 4, 6] : List ℚ).Chain' (· < ·)
    ∧ 2 ≤ ([2, 4, 6] : List ℚ).length
    ∧ ([0, 2, 4, 6, 8, 10] : List ℚ).Chain' (· < ·)
    ∧ 3 ≤ ([0, 2, 4, 6, 8, 10] : List ℚ).length
    ∧ ([Fp.fin 10, Fp.fin 20, Fp.fin 30, Fp.fin 40, Fp.fin 50, Fp.fin 60]).length
        = ([0, 2, 4, 6, 8, 10] : List ℚ).length
    ∧ (∀ f ∈ [Fp.fin 10, Fp.fin 20, Fp.fin 30, Fp.fin 40, Fp.fin 50, Fp.fin 60],
        f.isFinite = true)
    ∧ (originalbinlimitsOf [0, 2, 4, 6, 8, 10]).getD 0 0
        ≤ (targetEdges [2, 4, 6]).getD 0 0
    ∧ 0 + 2 ≤ ([2, 4, 6] : List ℚ).length
    ∧ (targetEdges [2, 4, 6]).getD (0 + 2) 0
        < (originalbinlimitsOf [0, 2, 4, 6, 8, 10]).getD
            ((originalbinlimitsOf [0, 2, 4, 6, 8, 10]).length - 1) 0
    ∧ ((List.range' 0 2).map (fun i =>
          Fp.val ((rebin_flux [2, 4, 6] [0, 2, 4, 6, 8, 10]
              [Fp.fin 10, Fp.fin 20, Fp.fin 30, Fp.fin 40, Fp.fin 50,
                Fp.fin 60]).getD i Fp.nan)
            * ((targetEdges [2, 4, 6]).getD (i + 1) 0
                - (targetEdges [2, 4, 6]).getD i 0))).sum
      = ((List.range (([0, 2, 4, 6, 8, 10] : List ℚ).length - 2)).map (fun j =>
          Fp.val (([Fp.fin 10, Fp.fin 20, Fp.fin 30, Fp.fin 40, Fp.fin 50,
              Fp.fin 60]).getD (j + 1) Fp.nan)
            * intervalOverlap ((originalbinlimitsOf [0, 2, 4, 6, 8, 10]).getD j 0)
                ((originalbinlimitsOf [0, 2, 4, 6, 8, 10]).getD (j + 1) 0)
                ((targetEdges [2, 4, 6]).getD 0 0)
                ((targetEdges [2, 4, 6]).getD (0 + 2) 0))).sum :=
  ⟨by norm_num [List.chain'_cons], by decide, by norm_num [List.chain'_cons], by decide,
   by rfl, by decide, by with_unfolding_all decide, by decide,
   by with_unfolding_all decide,
   rebin_flux_conserves [2, 4, 6] [0, 2, 4, 6, 8, 10]
     [Fp.fin 10, Fp.fin 20, Fp.fin 30, Fp.fin 40, Fp.fin 50, Fp.fin 60] 0
     (by norm_num [List.chain'_cons]) (by decide) (by norm_num [List.chain'_cons])
     (by decide) (by rfl) (by decide) (by with_unfolding_all decide) 2 (by decide)
     (by with_unfolding_all decide)⟩

/-- A loop iteration at a finite `origbinindex` entry raises `IndexError`
on every path (lines 691, 710 and 711). -/
theorem rebinIter_finite (nfrac : ℕ) (obi : List (Option ℚ)) (i : ℕ) (u : ℚ)
    (h : obi.getD i none = some u) :
    rebinIter nfrac obi i = Except.error PyError.indexError := by
  unfold rebinIter
  rw [h]
  simp only [rebinIterVal]
  split_ifs <;> rfl

/-- A loop iteration at a NaN `origbinindex` entry is skipped (line 683). -/
theorem rebinIter_nan (nfrac : ℕ) (obi : List (Option ℚ)) (i : ℕ)
    (h : obi.getD i none = none) :
    rebinIter nfrac obi i = Except.ok () := by
  unfold rebinIter
  rw [h]
  rfl

/-- An error accumulator absorbs the rest of the loop. -/
theorem foldl_bind_error : ∀ (L : List ℕ) (g : ℕ → Except PyError Unit)
    (e : PyError),
    L.foldl (fun acc i => acc.bind (fun _ => g i)) (Except.error e)
      = Except.error e
  | [], _, _ => rfl
  | _ :: L, g, e => foldl_bind_error L g e

/-- A fold of ok-or-IndexError steps that hits at least one IndexError
ends in IndexError. -/
theorem foldl_bind_hits : ∀ (L : List ℕ) (g : ℕ → Except PyError Unit),
    (∀ i ∈ L, g i = Except.ok () ∨ g i = Except.error PyError.indexError) →
    (∃ i ∈ L, g i = Except.error PyError.indexError) →
    L.foldl (fun acc i => acc.bind (fun _ => g i)) (Except.ok ())
      = Except.error PyError.indexError
  | [], _, _, hex => by
    obtain ⟨i, hi, _⟩ := hex
    simp at hi
  | a :: L, g, hall, hex => by
    rw [List.foldl_cons]
    have hstep : (Except.ok () : Except PyError Unit).bind (fun _ => g a)
        = g a := rfl
    rw [hstep]
    rcases hall a (by simp) with hok | herr
    · rw [hok]
      refine foldl_bind_hits L g
        (fun i hi => hall i (List.mem_cons_of_mem a hi)) ?_
      obtain ⟨i, hi, hgi⟩ := hex
      rcases List.mem_cons.mp hi with heq | hmem
      · subst heq
        rw [hok] at hgi
        exact Except.noConfusion hgi
      · exact ⟨i, hmem, hgi⟩
    · rw [herr]
      exact foldl_bind_error L g PyError.indexError

/-- Whenever any `origbinindex` entry is finite, the accumulation loop
raises `IndexError` and never reaches the final division (line 715). -/
theorem rebinAccumLoop_errors (nfrac : ℕ) (obi : List (Option ℚ))
    (h : ¬ obi.all (fun e => e.isNone) = true) :
    rebinAccumLoop nfrac obi = Except.error PyError.indexError := by
  have hex : ∃ x ∈ obi, ¬ x.isNone = true := by
    by_contra hcon
    push_neg at hcon
    exact h (List.all_eq_true.mpr hcon)
  obtain ⟨x, hmem, hx⟩ := hex
  obtain ⟨i, hilen, hieq⟩ := List.mem_iff_getElem.mp hmem
  have hgd : obi.getD i none = x := by
    rw [getD_eq_getElem obi i hilen]
    exact hieq
  have hu : ∃ u, x = some u := by
    cases x with
    | none => simp at hx
    | some u => exact ⟨u, rfl⟩
  obtain ⟨u, rfl⟩ := hu
  unfold rebinAccumLoop
  apply foldl_bind_hits
  · intro j _
    cases hgj : obi.getD j none with
    | none => exact Or.inl (rebinIter_nan nfrac obi j hgj)
    | some w => exact Or.inr (rebinIter_finite nfrac obi j w hgj)
  · exact ⟨i, List.mem_range.mpr hilen, rebinIter_finite nfrac obi i u hgd⟩

/-- C3 (code bug): `rebin_flux` never returns, so no returned flux
densities exist whose total flux could be conserved.  In this module the
function is called only with the 1-D observed spectrum (line 608), and
then every call with consistent shapes raises an uncaught exception
before `rebinneddata` is produced: `targetwl[0]` (line 667) on an empty
target grid, `np.interp` (line 672) on an empty source bin-limit list,
`np.max(np.where(...))` (line 680) when no target edge falls in the
source bin-limit range, and otherwise `IndexError` from the accumulation
loop at its first finite edge index — at line 691 (`origbinindex[i+1]`
out of bounds), line 710 (fancy index at `len(fraccounted)`) or line 711
(`originalflux[:, indices]` two-index-reads a 1-D array). -/
theorem rebin_flux_never_returns (t s : List ℚ) (flux : List Fp)
    (hflen : flux.length = s.length) :
    ∃ e, rebin_flux_checked t s flux = Except.error e := by
  clear hflen
  unfold rebin_flux_checked
  split_ifs with h1 h2 h3
  · exact ⟨PyError.indexError, rfl⟩
  · exact ⟨PyError.valueError, rfl⟩
  · exact ⟨PyError.valueError, rfl⟩
  · rw [rebinAccumLoop_errors (s.length - 2) (origbinindexOf t s) h3]
    exact ⟨PyError.indexError, rfl⟩

/-- Witness for C3's failing input: the overlapping, all-finite call
with target `[2, 4, 6]` and source `[0, 2, 4, 6, 8, 10]` raises
(concretely, `IndexError` from the accumulation loop) instead of
returning a rebinned spectrum. -/
theorem rebin_flux_never_returns_witness :
    ([Fp.fin 10, Fp.fin 20, Fp.fin 30, Fp.fin 40, Fp.fin 50,
        Fp.fin 60] : List Fp).length = ([0, 2, 4, 6, 8, 10] : List ℚ).length
    ∧ rebin_flux_checked [2, 4, 6] [0, 2, 4, 6, 8, 10]
        [Fp.fin 10, Fp.fin 20, Fp.fin 30, Fp.fin 40, Fp.fin 50, Fp.fin 60]
      = Except.error PyError.indexError
    ∧ ∃ e, rebin_flux_checked [2, 4, 6] [0, 2, 4, 6, 8, 10]
        [Fp.fin 10, Fp.fin 20, Fp.fin 30, Fp.fin 40, Fp.fin 50, Fp.fin 60]
      = Except.error e :=
  ⟨rfl, by with_unfolding_all rfl,
   rebin_flux_never_returns [2, 4, 6] [0, 2, 4, 6, 8, 10]
     [Fp.fin 10, Fp.fin 20, Fp.fin 30, Fp.fin 40, Fp.fin 50, Fp.fin 60] rfl⟩
